import Mathlib

/-!
Shallow embedding of the `bitparser` library (src/bitparser/__init__.py and
src/bitparser/utils.py) together with proofs about its documented behaviour.

Byte strings are modelled as `List Nat` (one entry per byte).  Python
exceptions are modelled by the error type `PErr`; every stateful operation
on the buffered reader returns its result together with the reader state at
the moment the operation finished (Python mutates the reader in place, and
a raised exception leaves whatever state the reader had at the raise site).
-/

/-- Python exceptions that the library can raise while decoding/encoding:
`endOfData` is `exceptions.EndOfData`, `assertionError` is the failure of
`assert length > 0` in `BufferedReader.read`, `structError` stands for
`struct.error` raised by the Python `struct` module, `indexError` for the
`[0]` subscript on an empty tuple, `keyError` for a missing dict key in
`BitField.pack`, `typeError` for applying a field encoder to a value of the
wrong Python type, and `valueError` is the `ValueError` raised by
`Constant.unpack` (it carries the field name, the expected value and the
actual decoded value, exactly the data interpolated into the Python
message string). -/
inductive PErr where
  | endOfData
  | assertionError
  | structError
  | indexError
  | keyError (k : String)
  | typeError
  | valueError (field : String) (expected actual : Nat)
  deriving DecidableEq, Repr

/-- State of `utils.BufferedReader`: `held` is the pending buffer
(`self.held`), `eof` the end-of-stream flag (`self.eof`), `src` the bytes
remaining in the wrapped file object `self.fd`, and `bufsize` the chunk
size (`self.bufsize`, 4096 by default).  The wrapped file's `read(k)`
returns up to `k` bytes, i.e. `src.take k`. -/
structure BufferedReader where
  held : List Nat
  eof : Bool
  src : List Nat
  bufsize : Nat
  deriving DecidableEq, Repr

namespace BufferedReader

/-- The `while len(self.held) < length and not self.eof` loop inside
`BufferedReader.read`, which pulls `bufsize`-byte chunks (`chunk =
self.fd.read(self.bufsize)`) from the underlying file into `held`, setting
`eof` when a chunk comes back empty.  The first argument is fuel; `read`
calls it with `src.length + 1`, which is provably enough because every
iteration either consumes at least one byte of `src` or sets `eof` and
stops, so the fuel-exhaustion branch is unreachable. -/
def fill : Nat → List Nat → List Nat → Bool → Nat → Nat → List Nat × List Nat × Bool
  | 0, held, src, eof, _, _ => (held, src, eof)
  | fuel + 1, held, src, eof, length, bufsize =>
    if held.length < length ∧ eof = false then
      if src.take bufsize = [] then (held, src, true)
      else fill fuel (held ++ src.take bufsize) (src.drop bufsize) eof length bufsize
    else (held, src, eof)

/-- `BufferedReader.read(length)`: asserts `length > 0`, fills the pending
buffer, then hands out up to `length` bytes (`self.held[:length]`, or the
whole buffer when it holds at most `length` bytes).  The assertion failure
leaves the reader untouched. -/
def read (r : BufferedReader) (length : Nat) : Except PErr (List Nat) × BufferedReader :=
  if length = 0 then (.error .assertionError, r)
  else
    let t := fill (r.src.length + 1) r.held r.src r.eof length r.bufsize
    if length < t.1.length then
      (.ok (t.1.take length), { r with held := t.1.drop length, src := t.2.1, eof := t.2.2 })
    else
      (.ok t.1, { r with held := [], src := t.2.1, eof := t.2.2 })

/-- `BufferedReader.pushback(bytes)`: prepend to the pending buffer. -/
def pushback (r : BufferedReader) (bs : List Nat) : BufferedReader :=
  { r with held := bs ++ r.held }

/-- `BufferedReader.peek(length)`: a `read` immediately followed by a
`pushback` of the result. -/
def peek (r : BufferedReader) (length : Nat) : Except PErr (List Nat) × BufferedReader :=
  match r.read length with
  | (.ok bs, r') => (.ok bs, r'.pushback bs)
  | (.error e, r') => (.error e, r')

/-- All bytes a reader can still deliver: pending buffer followed by the
unread part of the underlying file. -/
def avail (r : BufferedReader) : List Nat :=
  r.held ++ r.src

/-- A reader in a consistent configuration: a positive chunk size (Python's
default is 4096) and an end-of-stream flag that is only set once the
underlying file is exhausted.  Freshly constructed readers satisfy this and
every operation preserves it. -/
def good (r : BufferedReader) : Prop :=
  0 < r.bufsize ∧ (r.eof = true → r.src = [])

instance (r : BufferedReader) : Decidable r.good := by
  unfold good; infer_instance

/-- A reader freshly wrapped around a byte stream, as built by
`BufferedReader(fd)`. -/
def mk0 (src : List Nat) (bufsize : Nat) : BufferedReader :=
  { held := [], eof := false, src := src, bufsize := bufsize }

theorem good_mk0 (src : List Nat) (bufsize : Nat) (h : 0 < bufsize) :
    (mk0 src bufsize).good := ⟨h, by simp [mk0]⟩

theorem avail_mk0 (src : List Nat) (bufsize : Nat) : (mk0 src bufsize).avail = src := by
  simp [mk0, avail]

theorem fill_append (fuel : Nat) (held src : List Nat) (eof : Bool) (length bufsize : Nat) :
    (fill fuel held src eof length bufsize).1 ++ (fill fuel held src eof length bufsize).2.1
      = held ++ src := by
  induction fuel generalizing held src eof with
  | zero => simp [fill]
  | succ n ih =>
    simp only [fill]
    split
    · split
      · rfl
      · rw [ih, List.append_assoc, List.take_append_drop]
    · rfl

theorem fill_exit (fuel : Nat) (held src : List Nat) (eof : Bool) (length bufsize : Nat)
    (hfuel : src.length < fuel) :
    ¬((fill fuel held src eof length bufsize).1.length < length ∧
      (fill fuel held src eof length bufsize).2.2 = false) := by
  induction fuel generalizing held src eof with
  | zero => omega
  | succ n ih =>
    simp only [fill]
    split
    · split
      · simp
      · rename_i hcond hch
        apply ih
        have hs : src ≠ [] := fun h => hch (by simp [h])
        have hb : bufsize ≠ 0 := fun h => hch (by simp [h])
        have : 0 < src.length := List.length_pos.mpr hs
        simp only [List.length_drop]
        omega
    · rename_i hcond
      exact hcond

theorem fill_eof (fuel : Nat) (held src : List Nat) (eof : Bool) (length bufsize : Nat)
    (hb : 0 < bufsize) (he : eof = true → src = []) :
    ((fill fuel held src eof length bufsize).2.2 = true →
      (fill fuel held src eof length bufsize).2.1 = []) := by
  induction fuel generalizing held src eof with
  | zero => simpa [fill] using he
  | succ n ih =>
    simp only [fill]
    split
    · rename_i hcond
      split
      · rename_i hch
        intro _
        cases hsrc : src with
        | nil => rfl
        | cons a l =>
          rw [hsrc] at hch
          cases hbuf : bufsize with
          | zero => omega
          | succ k => simp [hbuf, List.take_cons] at hch
      · exact ih _ _ _ (fun h => absurd h (by simp [hcond.2]))
    · exact he

/-- If the fill loop would not run (buffer already long enough, or eof
set), `fill` does nothing. -/
theorem fill_idle (fuel : Nat) (held src : List Nat) (eof : Bool) (length bufsize : Nat)
    (h : ¬(held.length < length ∧ eof = false)) (hfuel : 0 < fuel) :
    fill fuel held src eof length bufsize = (held, src, eof) := by
  cases fuel with
  | zero => omega
  | succ n => simp only [fill, if_neg h]

theorem avail_pushback (r : BufferedReader) (bs : List Nat) :
    (r.pushback bs).avail = bs ++ r.avail := by
  simp [pushback, avail]

theorem good_pushback (r : BufferedReader) (bs : List Nat) (h : r.good) :
    (r.pushback bs).good := h

/-- A `read` with positive length never raises and, on a consistent reader,
returns exactly the first `n` available bytes, leaving the rest. -/
theorem read_spec (r : BufferedReader) (n : Nat) (hg : r.good) (hn : 0 < n) :
    (r.read n).1 = .ok (r.avail.take n) ∧
    (r.read n).2.avail = r.avail.drop n ∧ (r.read n).2.good := by
  obtain ⟨hb, he⟩ := hg
  have hfuel : r.src.length < r.src.length + 1 := Nat.lt_succ_self _
  have hc := fill_append (r.src.length + 1) r.held r.src r.eof n r.bufsize
  have hx := fill_exit (r.src.length + 1) r.held r.src r.eof n r.bufsize hfuel
  have hf := fill_eof (r.src.length + 1) r.held r.src r.eof n r.bufsize hb he
  unfold read
  rw [if_neg (by omega)]
  set t := fill (r.src.length + 1) r.held r.src r.eof n r.bufsize with ht
  have havail : r.avail = t.1 ++ t.2.1 := by rw [avail, ← hc]
  simp only
  split
  · rename_i hlen
    have h1 : (t.1 ++ t.2.1).take n = t.1.take n :=
      List.take_append_of_le_length (Nat.le_of_lt hlen)
    have h2 : (t.1 ++ t.2.1).drop n = t.1.drop n ++ t.2.1 :=
      List.drop_append_of_le_length (Nat.le_of_lt hlen)
    refine ⟨?_, ?_, ?_, ?_⟩
    · rw [havail, h1]
    · show t.1.drop n ++ t.2.1 = r.avail.drop n
      rw [havail, h2]
    · simpa using hb
    · exact fun h => hf h
  · rename_i hlen
    push_neg at hlen
    rcases Nat.lt_or_ge t.1.length n with hlt | hge
    · -- the loop stopped short of `n` bytes, so eof is set and src is empty
      have heof : t.2.2 = true := by
        cases hval : t.2.2
        · exact absurd ⟨hlt, hval⟩ hx
        · rfl
      have hsrc : t.2.1 = [] := hf heof
      have hav2 : r.avail = t.1 := by rw [havail, hsrc, List.append_nil]
      refine ⟨?_, ?_, ?_, ?_⟩
      · rw [hav2, List.take_of_length_le (Nat.le_of_lt hlt)]
      · show List.nil ++ t.2.1 = r.avail.drop n
        rw [hav2, List.drop_eq_nil_of_le (Nat.le_of_lt hlt), hsrc, List.nil_append]
      · simpa using hb
      · exact fun h => hsrc
    · -- the buffer holds exactly n bytes
      have heq : t.1.length = n := Nat.le_antisymm hlen hge
      have h1 : (t.1 ++ t.2.1).take n = t.1 := by
        rw [List.take_append_of_le_length (Nat.le_of_eq heq.symm),
          List.take_of_length_le (Nat.le_of_eq heq)]
      have h2 : (t.1 ++ t.2.1).drop n = t.2.1 := by
        rw [List.drop_append_of_le_length (Nat.le_of_eq heq.symm),
          List.drop_eq_nil_of_le (Nat.le_of_eq heq), List.nil_append]
      refine ⟨?_, ?_, ?_, ?_⟩
      · rw [havail, h1]
      · show List.nil ++ t.2.1 = r.avail.drop n
        rw [havail, h2, List.nil_append]
      · simpa using hb
      · exact fun h => hf h

/-- Conservation: a successful `read` splits the available bytes between
its result and the reader's remaining state (no byte is lost or invented),
for any reader state whatsoever. -/
theorem read_append (r : BufferedReader) (n : Nat) (bs : List Nat) (r' : BufferedReader)
    (h : r.read n = (.ok bs, r')) : bs ++ r'.avail = r.avail := by
  unfold read at h
  split at h
  · simp at h
  · have hc := fill_append (r.src.length + 1) r.held r.src r.eof n r.bufsize
    set t := fill (r.src.length + 1) r.held r.src r.eof n r.bufsize with ht
    simp only at h
    split at h
    · simp only [Prod.mk.injEq, Except.ok.injEq] at h
      obtain ⟨h1, h2⟩ := h
      subst h1; subst h2
      simp only [avail, ← List.append_assoc, List.take_append_drop]
      exact hc
    · simp only [Prod.mk.injEq, Except.ok.injEq] at h
      obtain ⟨h1, h2⟩ := h
      subst h1; subst h2
      simpa [avail] using hc

/-- After a `read`/`pushback` pair, reading again returns the same bytes
and puts the reader into exactly the state the first `read` left behind.
This holds for every reader state, consistent or not. -/
theorem read_pushback_read (r : BufferedReader) (n : Nat) (bs : List Nat) (r' : BufferedReader)
    (h : r.read n = (.ok bs, r')) : (r'.pushback bs).read n = (.ok bs, r') := by
  unfold read at h
  split at h
  · simp at h
  · rename_i hn
    have hfuel : r.src.length < r.src.length + 1 := Nat.lt_succ_self _
    have hx := fill_exit (r.src.length + 1) r.held r.src r.eof n r.bufsize hfuel
    set t := fill (r.src.length + 1) r.held r.src r.eof n r.bufsize with ht
    simp only at h
    split at h
    · rename_i hlen
      simp only [Prod.mk.injEq, Except.ok.injEq] at h
      obtain ⟨h1, h2⟩ := h
      subst h1; subst h2
      unfold read
      rw [if_neg hn]
      simp only [pushback, List.take_append_drop]
      rw [fill_idle _ _ _ _ _ _ (by
        intro hcontra
        rcases not_and_or.mp hx with hx1 | hx2
        · exact hx1 (by simpa using hcontra.1)
        · exact hx2 (by simpa using hcontra.2)) (by omega)]
      simp only [if_pos (by simpa using hlen)]
    · rename_i hlen
      simp only [Prod.mk.injEq, Except.ok.injEq] at h
      obtain ⟨h1, h2⟩ := h
      subst h1; subst h2
      unfold read
      rw [if_neg hn]
      simp only [pushback, List.append_nil]
      rw [fill_idle _ _ _ _ _ _ (by
        intro hcontra
        rcases not_and_or.mp hx with hx1 | hx2
        · exact hx1 (by simpa using hcontra.1)
        · exact hx2 (by simpa using hcontra.2)) (by omega)]
      simp only [if_neg hlen]

end BufferedReader

/-!
## The Python `struct` module

`Array`-style fields delegate their fixed-width binary layout to Python's
`struct` module via `struct.Struct(format)`.  We model a representative
set of unsigned integer format codes in both byte orders (`B`, `<H`, `>H`,
`<I`, `>I`); the element list plays the role of the format string.
`struct.pack` raises `struct.error` when a value is out of range for its
code or when the number of values does not match the format, and
`struct.unpack` raises `struct.error` unless the buffer length equals
`calcsize(format)` exactly.
-/

/-- One element code of a `struct` format string. -/
inductive Elem where
  | u8
  | u16le
  | u16be
  | u32le
  | u32be
  deriving DecidableEq, Repr

namespace Elem

/-- Encoded byte width of one element code. -/
def width : Elem → Nat
  | .u8 => 1
  | .u16le => 2
  | .u16be => 2
  | .u32le => 4
  | .u32be => 4

/-- Encode one value, or `none` (→ `struct.error`) when it is out of
range for the code. -/
def packE : Elem → Nat → Option (List Nat)
  | .u8, v => if v < 256 then some [v] else none
  | .u16le, v => if v < 65536 then some [v % 256, v / 256] else none
  | .u16be, v => if v < 65536 then some [v / 256, v % 256] else none
  | .u32le, v =>
    if v < 4294967296 then some [v % 256, v / 256 % 256, v / 65536 % 256, v / 16777216]
    else none
  | .u32be, v =>
    if v < 4294967296 then some [v / 16777216, v / 65536 % 256, v / 256 % 256, v % 256]
    else none

/-- Decode one element from exactly `width` bytes. -/
def unpackE : Elem → List Nat → Nat
  | .u8, [a] => a
  | .u16le, [a, b] => a + 256 * b
  | .u16be, [a, b] => 256 * a + b
  | .u32le, [a, b, c, d] => a + 256 * b + 65536 * c + 16777216 * d
  | .u32be, [a, b, c, d] => 16777216 * a + 65536 * b + 256 * c + d
  | _, _ => 0

theorem width_pos (e : Elem) : 0 < e.width := by
  cases e <;> simp [width]

theorem packE_spec (e : Elem) (v : Nat) (bs : List Nat) (h : e.packE v = some bs) :
    bs.length = e.width ∧ e.unpackE bs = v := by
  cases e <;> simp only [packE] at h <;> split at h <;>
      first
      | exact Option.noConfusion h
      | (injection h with h
         subst h
         refine ⟨by simp [Elem.width], ?_⟩
         (simp only [Elem.unpackE]) <;> omega)

end Elem

/-- `struct.calcsize(format)`: total byte width of a format. -/
def calcsize (fmt : List Elem) : Nat :=
  (fmt.map Elem.width).sum

namespace PyStruct

/-- `struct.Struct(format).pack(*vals)`: encodes elementwise, raising
`struct.error` on an arity mismatch or an out-of-range value. -/
def pack : List Elem → List Nat → Except PErr (List Nat)
  | [], [] => .ok []
  | e :: fmt, v :: vs =>
    match e.packE v with
    | none => .error .structError
    | some bs =>
      match pack fmt vs with
      | .ok rest => .ok (bs ++ rest)
      | .error er => .error er
  | [], _ :: _ => .error .structError
  | _ :: _, [] => .error .structError

/-- Elementwise decoding of a buffer whose length matches the format. -/
def unpackAux : List Elem → List Nat → List Nat
  | [], _ => []
  | e :: fmt, bs => e.unpackE (bs.take e.width) :: unpackAux fmt (bs.drop e.width)

/-- `struct.Struct(format).unpack(buffer)`: raises `struct.error` unless
the buffer length equals `calcsize(format)`. -/
def unpack (fmt : List Elem) (bs : List Nat) : Except PErr (List Nat) :=
  if bs.length = calcsize fmt then .ok (unpackAux fmt bs) else .error .structError

theorem pack_length (fmt : List Elem) (vs : List Nat) (bs : List Nat)
    (h : pack fmt vs = .ok bs) : bs.length = calcsize fmt := by
  induction fmt generalizing vs bs with
  | nil =>
    cases vs with
    | nil => simp only [pack, Except.ok.injEq] at h; simp [← h, calcsize]
    | cons v vs => simp [pack] at h
  | cons e fmt ih =>
    cases vs with
    | nil => simp [pack] at h
    | cons v vs =>
      simp only [pack] at h
      cases hp : e.packE v with
      | none => rw [hp] at h; simp at h
      | some b =>
        rw [hp] at h
        cases hr : pack fmt vs with
        | error er => rw [hr] at h; simp at h
        | ok rest =>
          rw [hr] at h
          simp only [Except.ok.injEq] at h
          subst h
          have hb := (Elem.packE_spec e v b hp).1
          have hr' := ih vs rest hr
          simp only [List.length_append, calcsize, List.map_cons, List.sum_cons] at *
          omega

/-- Round trip at the `struct`-module level: a successful `pack` decodes
back to exactly the values that were packed. -/
theorem unpack_pack (fmt : List Elem) (vs : List Nat) (bs : List Nat)
    (h : pack fmt vs = .ok bs) : unpack fmt bs = .ok vs := by
  rw [unpack, if_pos (pack_length fmt vs bs h)]
  congr 1
  induction fmt generalizing vs bs with
  | nil =>
    cases vs with
    | nil => simp only [pack, Except.ok.injEq] at h; simp [← h, unpackAux]
    | cons v vs => simp [pack] at h
  | cons e fmt ih =>
    cases vs with
    | nil => simp [pack] at h
    | cons v vs =>
      simp only [pack] at h
      cases hp : e.packE v with
      | none => rw [hp] at h; simp at h
      | some b =>
        rw [hp] at h
        cases hr : pack fmt vs with
        | error er => rw [hr] at h; simp at h
        | ok rest =>
          rw [hr] at h
          simp only [Except.ok.injEq] at h
          subst h
          obtain ⟨hlen, hval⟩ := Elem.packE_spec e v b hp
          simp only [unpackAux]
          have h1 : List.take e.width (b ++ rest) = b := by
            rw [List.take_append_of_le_length (Nat.le_of_eq hlen.symm),
              List.take_of_length_le (Nat.le_of_eq hlen)]
          have h2 : List.drop e.width (b ++ rest) = rest := by
            rw [List.drop_append_of_le_length (Nat.le_of_eq hlen.symm),
              List.drop_eq_nil_of_le (Nat.le_of_eq hlen), List.nil_append]
          rw [h1, h2, hval, ih vs rest hr]

end PyStruct

/-!
## Values and Python dictionaries

A decoded field value is one of: a tuple of integers (`Array`), a single
integer (`Field`/`Constant`), a byte string (`CString`), a flag-name →
boolean dictionary (`BitField`, whose default dictionary can also carry
the `None` placeholder as a key, hence the `Option String` keys), a nested
record (`Alias`), or Python's `None`.  Dictionaries are modelled as
insertion-ordered association lists with Python's `d[k] = v` update
semantics. -/
inductive Value where
  | vtuple (vs : List Nat)
  | vnat (n : Nat)
  | vstr (s : List Nat)
  | vflags (m : List (Option String × Bool))
  | vrecord (m : List (String × Value))
  | vnone

/-- A field default (`BaseField._default`): either a literal value or a
zero-argument callable that `get_default` invokes on each access. -/
inductive DefaultSpec where
  | lit (v : Value)
  | producer (f : Unit → Value)

/-- `BaseField.get_default`: materialize the default, invoking it if it is
callable. -/
def DefaultSpec.get : DefaultSpec → Value
  | .lit v => v
  | .producer f => f ()

/-- Python `d.get(k)` / `k in d`-style lookup on an association list. -/
def dictGet? {K V : Type} [DecidableEq K] : List (K × V) → K → Option V
  | [], _ => none
  | (k', v) :: m, k => if k' = k then some v else dictGet? m k

/-- Python `d.get(k, dflt)`. -/
def dictGetD {K V : Type} [DecidableEq K] (m : List (K × V)) (k : K) (dflt : V) : V :=
  (dictGet? m k).getD dflt

/-- Python `d[k] = v`: update in place if the key is present (keeping its
position), otherwise append. -/
def dictInsert {K V : Type} [DecidableEq K] : List (K × V) → K → V → List (K × V)
  | [], k, v => [(k, v)]
  | (k', v') :: m, k, v =>
    if k' = k then (k, v) :: m else (k', v') :: dictInsert m k v

theorem dictGet?_insert_self {K V : Type} [DecidableEq K] (m : List (K × V)) (k : K) (v : V) :
    dictGet? (dictInsert m k v) k = some v := by
  induction m with
  | nil => simp [dictInsert, dictGet?]
  | cons p m ih =>
    obtain ⟨k', v'⟩ := p
    by_cases h : k' = k
    · simp [dictInsert, dictGet?, h]
    · simp [dictInsert, dictGet?, h, ih]

theorem dictGet?_insert_ne {K V : Type} [DecidableEq K] (m : List (K × V)) (k k' : K) (v : V)
    (h : k' ≠ k) : dictGet? (dictInsert m k' v) k = dictGet? m k := by
  induction m with
  | nil => simp [dictInsert, dictGet?, h]
  | cons p m ih =>
    obtain ⟨k'', v''⟩ := p
    by_cases h2 : k'' = k'
    · subst h2
      simp [dictInsert, dictGet?, h]
    · simp only [dictInsert, if_neg h2]
      by_cases h3 : k'' = k
      · simp [dictGet?, h3]
      · simp [dictGet?, h3, ih]

/-!
## Bit-flag packing and unpacking

The two `enumerate(self.fields)` loops of `BitField`.  The flag list uses
`none` for the `None` placeholders; `i` is the running bit index. -/

/-- The loop of `BitField.unpack`: `values[f] = bool(data & (1 << i))` for
every non-placeholder flag name. -/
def bitsUnpack (data : Nat) : List (Option String) → Nat → List (Option String × Bool) →
    List (Option String × Bool)
  | [], _, values => values
  | none :: fs, i, values => bitsUnpack data fs (i + 1) values
  | some f :: fs, i, values =>
    bitsUnpack data fs (i + 1)
      (dictInsert values (some f) (decide (data &&& (1 <<< i) ≠ 0)))

/-- The loop of `BitField.pack`: OR together `1 << i` for every
non-placeholder flag whose value in the dictionary is true; a missing key
raises `KeyError`. -/
def bitsPack (values : List (Option String × Bool)) :
    List (Option String) → Nat → Nat → Except PErr Nat
  | [], _, data => .ok data
  | none :: fs, i, data => bitsPack values fs (i + 1) data
  | some f :: fs, i, data =>
    match dictGet? values (some f) with
    | none => .error (.keyError f)
    | some b => bitsPack values fs (i + 1) (if b then data ||| (1 <<< i) else data)

theorem and_shiftLeft_ne_zero (data i : Nat) :
    decide (data &&& (1 <<< i) ≠ 0) = data.testBit i := by
  rw [Nat.one_shiftLeft, Nat.and_two_pow]
  cases h : data.testBit i <;> simp [h, Nat.pos_iff_ne_zero, Nat.pow_eq_zero]

/-- Bitwise characterization of the `BitField.pack` loop: bit `j` of the
result is bit `j` of the accumulator, or the looked-up boolean of the flag
at position `j - i` when `j ≥ i`. -/
theorem bitsPack_testBit (values : List (Option String × Bool)) (fs : List (Option String))
    (i a d : Nat) (h : bitsPack values fs i a = .ok d) (j : Nat) :
    d.testBit j = (a.testBit j ||
      (decide (i ≤ j) &&
        (((fs.get? (j - i)).join.bind (fun f => dictGet? values (some f))).getD false)) : Bool) := by
  induction fs generalizing i a with
  | nil =>
    simp only [bitsPack, Except.ok.injEq] at h
    subst h
    simp [List.get?]
  | cons g fs ih =>
    cases g with
    | none =>
      have := ih (i + 1) a h
      rw [this]
      rcases Nat.lt_trichotomy j i with hj | hj | hj
      · have h1 : ¬(i ≤ j) := by omega
        have h2 : ¬(i + 1 ≤ j) := by omega
        simp [h1, h2]
      · subst hj
        have h2 : ¬(j + 1 ≤ j) := by omega
        simp [h2, List.get?]
      · have h1 : i ≤ j := by omega
        have h2 : i + 1 ≤ j := by omega
        have h3 : j - i = (j - (i + 1)) + 1 := by omega
        simp [h1, h2, h3, List.get?]
    | some f =>
      simp only [bitsPack] at h
      cases hb : dictGet? values (some f) with
      | none => rw [hb] at h; exact absurd h (by simp)
      | some b =>
        rw [hb] at h
        have := ih (i + 1) (if b then a ||| (1 <<< i) else a) h
        rw [this]
        have ha : (if b then a ||| (1 <<< i) else a).testBit j =
            (a.testBit j || (b && decide (j = i)) : Bool) := by
          cases b with
          | false => simp
          | true =>
            simp only [if_pos trivial, Nat.testBit_or, Nat.one_shiftLeft,
              Nat.testBit_two_pow]
            by_cases hj : j = i
            · subst hj; simp
            · have hne : i ≠ j := fun hc => hj hc.symm
              simp [hj, hne]
        rw [ha]
        rcases Nat.lt_trichotomy j i with hj | hj | hj
        · have h1 : ¬(i ≤ j) := by omega
          have h2 : ¬(i + 1 ≤ j) := by omega
          have h3 : j ≠ i := by omega
          simp [h1, h2, h3]
        · subst hj
          have h2 : ¬(j + 1 ≤ j) := by omega
          simp [h2, List.get?, hb]
        · have h1 : i ≤ j := by omega
          have h2 : i + 1 ≤ j := by omega
          have h3 : j ≠ i := by omega
          have h4 : j - i = (j - (i + 1)) + 1 := by omega
          simp [h1, h2, h3, h4, List.get?]

/-- `BitField.pack` succeeds whenever the dictionary has an entry for every
non-placeholder flag name. -/
theorem bitsPack_ok (values : List (Option String × Bool)) (fs : List (Option String))
    (i a : Nat) (h : ∀ f, some f ∈ fs → dictGet? values (some f) ≠ none) :
    ∃ d, bitsPack values fs i a = .ok d := by
  induction fs generalizing i a with
  | nil => exact ⟨a, rfl⟩
  | cons g fs ih =>
    cases g with
    | none => exact ih (i + 1) a (fun f hf => h f (List.mem_cons_of_mem _ hf))
    | some f =>
      cases hb : dictGet? values (some f) with
      | none => exact absurd hb (h f (List.mem_cons_self _ _))
      | some b =>
        simp only [bitsPack, hb]
        exact ih (i + 1) _ (fun f' hf => h f' (List.mem_cons_of_mem _ hf))

/-- Keys never inserted by the `BitField.unpack` loop keep their original
lookup result. -/
theorem bitsUnpack_get_of_not_mem (data : Nat) (fs : List (Option String)) (i : Nat)
    (values : List (Option String × Bool)) (k : Option String) (h : k ∉ fs ∨ k = none) :
    dictGet? (bitsUnpack data fs i values) k = dictGet? values k := by
  induction fs generalizing i values with
  | nil => rfl
  | cons g fs ih =>
    cases g with
    | none =>
      exact ih (i + 1) values (by
        rcases h with h | h
        · exact Or.inl (fun hc => h (List.mem_cons_of_mem _ hc))
        · exact Or.inr h)
    | some f =>
      simp only [bitsUnpack]
      rw [ih (i + 1) _ (by
        rcases h with h | h
        · exact Or.inl (fun hc => h (List.mem_cons_of_mem _ hc))
        · exact Or.inr h)]
      apply dictGet?_insert_ne
      rcases h with h | h
      · exact fun hc => h (hc ▸ List.mem_cons_self _ _)
      · intro hc
        rw [h] at hc
        exact Option.noConfusion hc

/-- Every flag name that occurs in the list ends up in the dictionary built
by `BitField.unpack`, bound to bit `i + j` of the data for some position
`j` at which it occurs. -/
theorem bitsUnpack_get_of_mem (data : Nat) (fs : List (Option String)) (i : Nat)
    (values : List (Option String × Bool)) (f : String) (h : some f ∈ fs) :
    ∃ j, fs.get? j = some (some f) ∧
      dictGet? (bitsUnpack data fs i values) (some f) = some (data.testBit (i + j)) := by
  induction fs generalizing i values with
  | nil => simp at h
  | cons g fs ih =>
    by_cases hmem : some f ∈ fs
    · obtain ⟨j, hj1, hj2⟩ := ih (i + 1) (match g with
        | none => values
        | some f' => dictInsert values (some f') (decide (data &&& (1 <<< i) ≠ 0))) hmem
      refine ⟨j + 1, by simpa [List.get?] using hj1, ?_⟩
      have : i + 1 + j = i + (j + 1) := by omega
      rw [← this]
      cases g with
      | none => exact hj2
      | some f' => exact hj2
    · cases g with
      | none =>
        rcases List.mem_cons.mp h with h1 | h1
        · exact Option.noConfusion h1
        · exact absurd h1 hmem
      | some f' =>
        have hf : f' = f := by
          rcases List.mem_cons.mp h with h1 | h1
          · exact (Option.some.inj h1).symm
          · exact absurd h1 hmem
        rw [hf]
        refine ⟨0, by simp [List.get?], ?_⟩
        simp only [bitsUnpack]
        rw [bitsUnpack_get_of_not_mem data fs (i + 1) _ (some f) (Or.inl hmem)]
        rw [dictGet?_insert_self, and_shiftLeft_ne_zero]
        simp

/-!
## The field taxonomy and `Struct`

The field classes of `bitparser/__init__.py` become one variant type.
`array` is the `Array` class, `scalar` is `Field` (a fixed array of one
element whose decode takes `[0]` of the tuple), `constant` is `Constant`
(whose `default` is its expected value), `cstring` is `CString` (we model
the common case of a single-byte delimiter, `'\x00'` by default), and
`bitfield` is `BitField`.  `alias` is the `Alias` class: it carries a
whole embedded schema and forwards `size`/`unpack`/`pack` to it through
`__getattr__`.  A schema (`Struct`) is an ordered sequence of fields,
written as its own list-like type so that all interpreters are structural
recursions. -/
mutual
inductive FieldSpec where
  | array (name : String) (fmt : List Elem) (default : DefaultSpec)
  | scalar (name : String) (fmt : List Elem) (default : DefaultSpec)
  | constant (name : String) (fmt : List Elem) (value : Nat)
  | cstring (name : String) (delim : Nat) (default : DefaultSpec)
  | bitfield (name : String) (fmt : List Elem) (flags : List (Option String))
      (default : DefaultSpec)
  | alias (name : String) (sub : StructSpec) (default : DefaultSpec)
inductive StructSpec where
  | nil
  | cons (f : FieldSpec) (fs : StructSpec)
end

/-- `BaseField.name`. -/
def FieldSpec.name : FieldSpec → String
  | .array n _ _ => n
  | .scalar n _ _ => n
  | .constant n _ _ => n
  | .cstring n _ _ => n
  | .bitfield n _ _ _ => n
  | .alias n _ _ => n

/-- The materialized default of a field (`f.default`, i.e. `get_default`):
`Constant` always answers its expected value (it passes `default=value` to
its superclass constructor); every other field materializes its stored
default, invoking it if callable. -/
def FieldSpec.defaultVal : FieldSpec → Value
  | .array _ _ d => d.get
  | .scalar _ _ d => d.get
  | .constant _ _ v => .vnat v
  | .cstring _ _ d => d.get
  | .bitfield _ _ _ d => d.get
  | .alias _ _ d => d.get

mutual
/-- Field width: `Array.size()` is `struct.Struct(format).size`
(`calcsize`), `CString.size()` is 0, and `Alias` forwards `size` to its
embedded schema. -/
def FieldSpec.size : FieldSpec → Nat
  | .array _ fmt _ => calcsize fmt
  | .scalar _ fmt _ => calcsize fmt
  | .constant _ fmt _ => calcsize fmt
  | .cstring _ _ _ => 0
  | .bitfield _ fmt _ _ => calcsize fmt
  | .alias _ sub _ => Struct.size sub
/-- `Struct.size()`: the sum of the field sizes (the schema's minimum
size). -/
def Struct.size : StructSpec → Nat
  | .nil => 0
  | .cons f fs => FieldSpec.size f + Struct.size fs
end

/-- The sizes of a schema's fields, in order. -/
def Struct.fieldSizes : StructSpec → List Nat
  | .nil => []
  | .cons f fs => FieldSpec.size f :: Struct.fieldSizes fs

/-- The names of a schema's fields, in order. -/
def Struct.names : StructSpec → List String
  | .nil => []
  | .cons f fs => FieldSpec.name f :: Struct.names fs

/-- A schema as a plain list of fields. -/
def Struct.toList : StructSpec → List FieldSpec
  | .nil => []
  | .cons f fs => f :: Struct.toList fs

/-- Is the schema empty (no fields at all)? -/
def Struct.isNil : StructSpec → Bool
  | .nil => true
  | .cons _ _ => false

/-- `Array.read(fd, size)` (also used by `CString.unpack` one byte at a
time): a reader `read` whose empty result raises `EndOfData`. -/
def fieldRead (fd : BufferedReader) (size : Nat) : Except PErr (List Nat) × BufferedReader :=
  match fd.read size with
  | (.ok bs, fd') => if bs = [] then (.error .endOfData, fd') else (.ok bs, fd')
  | (.error e, fd') => (.error e, fd')

/-- `Array.unpack`: read `size()` bytes and decode them with the `struct`
module. -/
def arrayUnpack (fmt : List Elem) (fd : BufferedReader) :
    Except PErr (List Nat) × BufferedReader :=
  match fieldRead fd (calcsize fmt) with
  | (.ok bs, fd') => (PyStruct.unpack fmt bs, fd')
  | (.error e, fd') => (.error e, fd')

/-- `Field.unpack`: `Array.unpack` followed by taking element `[0]` of the
decoded tuple. -/
def scalarUnpack (fmt : List Elem) (fd : BufferedReader) :
    Except PErr Nat × BufferedReader :=
  match arrayUnpack fmt fd with
  | (.ok (v :: _), fd') => (.ok v, fd')
  | (.ok [], fd') => (.error .indexError, fd')
  | (.error e, fd') => (.error e, fd')

/-- The body of `CString.unpack`: read one byte at a time until the
delimiter appears (the delimiter is consumed but not returned) or the
stream runs dry (`EndOfData`).  The first argument is fuel, called with
one more than the number of available bytes, which is provably enough
since every iteration consumes a byte; the fuel-exhaustion branch is
unreachable. -/
def cstringLoop (delim : Nat) : Nat → BufferedReader → List Nat →
    Except PErr (List Nat) × BufferedReader
  | 0, fd, _ => (.error .endOfData, fd)
  | fuel + 1, fd, acc =>
    match fieldRead fd 1 with
    | (.ok b, fd') =>
      if b = [delim] then (.ok acc, fd') else cstringLoop delim fuel fd' (acc ++ b)
    | (.error e, fd') => (.error e, fd')

/-- The guarded whole-schema lookahead at the top of `Struct.iterunpack`:
`data = fd.read(self.size()); fd.pushback(data)`, raising `EndOfData` when
fewer than `size` bytes came back.  Note that `fd.read` asserts a positive
length, so a zero `size` raises `AssertionError` here. -/
def sizeCheckRead (size : Nat) (fd : BufferedReader) : Except PErr Unit × BufferedReader :=
  match fd.read size with
  | (.ok data, fd') =>
    let fd₁ := fd'.pushback data
    if data.length < size then (.error .endOfData, fd₁) else (.ok (), fd₁)
  | (.error e, fd') => (.error e, fd')

mutual
/-- `unpack` of each field class, acting on a buffered reader.  The
`alias` case is `Struct.unpack` of the embedded schema (the size check of
`iterunpack` followed by the field loop), producing a nested record. -/
def FieldSpec.unpack : FieldSpec → BufferedReader → Except PErr Value × BufferedReader
  | .array _ fmt _, fd =>
    match arrayUnpack fmt fd with
    | (.ok vs, fd') => (.ok (.vtuple vs), fd')
    | (.error e, fd') => (.error e, fd')
  | .scalar _ fmt _, fd =>
    match scalarUnpack fmt fd with
    | (.ok v, fd') => (.ok (.vnat v), fd')
    | (.error e, fd') => (.error e, fd')
  | .constant nm fmt v, fd =>
    match scalarUnpack fmt fd with
    | (.ok w, fd') =>
      if w ≠ v then (.error (.valueError nm v w), fd') else (.ok (.vnat w), fd')
    | (.error e, fd') => (.error e, fd')
  | .cstring _ delim _, fd =>
    match cstringLoop delim (fd.avail.length + 1) fd [] with
    | (.ok s, fd') => (.ok (.vstr s), fd')
    | (.error e, fd') => (.error e, fd')
  | .bitfield _ fmt flags _, fd =>
    match scalarUnpack fmt fd with
    | (.ok n, fd') => (.ok (.vflags (bitsUnpack n flags 0 [])), fd')
    | (.error e, fd') => (.error e, fd')
  | .alias _ sub _, fd =>
    match sizeCheckRead (Struct.size sub) fd with
    | (.ok _, fd') =>
      match Struct.unpackFields sub fd' [] with
      | (.ok m, fd'') => (.ok (.vrecord m), fd'')
      | (.error e, fd'') => (.error e, fd'')
    | (.error e, fd') => (.error e, fd')
/-- The field loop of `Struct.iterunpack`/`Struct.unpack`: decode each
field in order and store it in the record under the field's name. -/
def Struct.unpackFields : StructSpec → BufferedReader → List (String × Value) →
    Except PErr (List (String × Value)) × BufferedReader
  | .nil, fd, values => (.ok values, fd)
  | .cons f fs, fd, values =>
    match FieldSpec.unpack f fd with
    | (.ok v, fd') => Struct.unpackFields fs fd' (dictInsert values (FieldSpec.name f) v)
    | (.error e, fd') => (.error e, fd')
end

/-- `Struct.unpack(fd)`: the whole-schema size check of `iterunpack`
followed by the field-by-field decode into a fresh record. -/
def Struct.unpack (fs : StructSpec) (fd : BufferedReader) :
    Except PErr (List (String × Value)) × BufferedReader :=
  match sizeCheckRead (Struct.size fs) fd with
  | (.ok _, fd') => Struct.unpackFields fs fd' []
  | (.error e, fd') => (.error e, fd')

mutual
/-- `pack` of each field class.  `Array.pack` feeds the tuple to the
`struct` module; `Field.pack` wraps its scalar in a 1-tuple; `Constant`
packs its own expected value and ignores the argument; `CString.pack`
appends the delimiter; `BitField.pack` ORs the flag bits together and
packs the resulting scalar; `Alias` forwards to `Struct.pack` of the
embedded schema.  Handing a field a value of a Python type its encoder
cannot process is modelled as `typeError`. -/
def FieldSpec.pack : FieldSpec → Value → Except PErr (List Nat)
  | .array _ fmt _, .vtuple vs => PyStruct.pack fmt vs
  | .array _ _ _, _ => .error .typeError
  | .scalar _ fmt _, .vnat n => PyStruct.pack fmt [n]
  | .scalar _ _ _, _ => .error .typeError
  | .constant _ fmt v, _ => PyStruct.pack fmt [v]
  | .cstring _ delim _, .vstr s => .ok (s ++ [delim])
  | .cstring _ _ _, _ => .error .typeError
  | .bitfield _ fmt flags _, .vflags m =>
    match bitsPack m flags 0 0 with
    | .ok data => PyStruct.pack fmt [data]
    | .error e => .error e
  | .bitfield _ _ _ _, _ => .error .typeError
  | .alias _ sub _, .vrecord m =>
    match Struct.packFields m sub [] with
    | .ok chunks => .ok chunks.flatten
    | .error e => .error e
  | .alias _ _ _, _ => .error .typeError
/-- The loop of `Struct.pack`: for each field in order, look its value up
in the record (falling back to the field's materialized default) and
append the field's encoding to the accumulated chunk list (Python's
`bytes.append(...)`). -/
def Struct.packFields : List (String × Value) → StructSpec → List (List Nat) →
    Except PErr (List (List Nat))
  | _, .nil, acc => .ok acc
  | values, .cons f fs, acc =>
    match FieldSpec.pack f (dictGetD values (FieldSpec.name f) (FieldSpec.defaultVal f)) with
    | .ok bs => Struct.packFields values fs (acc ++ [bs])
    | .error e => .error e
end

/-- `Struct.pack(values)`: run the field loop and join the chunks
(`''.join(bytes)`). -/
def Struct.pack (fs : StructSpec) (values : List (String × Value)) : Except PErr (List Nat) :=
  match Struct.packFields values fs [] with
  | .ok chunks => .ok chunks.flatten
  | .error e => .error e

/-!
## Schema predicates
-/

mutual
/-- No variable-length (`CString`) field anywhere in the field, including
inside nested `Alias` schemas. -/
def FieldSpec.noVar : FieldSpec → Bool
  | .array _ _ _ => true
  | .scalar _ _ _ => true
  | .constant _ _ _ => true
  | .cstring _ _ _ => false
  | .bitfield _ _ _ _ => true
  | .alias _ sub _ => Struct.noVarFields sub
/-- No variable-length field anywhere in the schema. -/
def Struct.noVarFields : StructSpec → Bool
  | .nil => true
  | .cons f fs => FieldSpec.noVar f && Struct.noVarFields fs
end

mutual
/-- Round-trippable field: no `Constant` and no `CString` (the claim's own
condition), a nonempty format (so its width is positive and decoding can
take element `[0]`), and, for an `Alias`, a round-trippable nested schema. -/
def FieldSpec.rt : FieldSpec → Bool
  | .array _ fmt _ => !fmt.isEmpty
  | .scalar _ fmt _ => !fmt.isEmpty
  | .constant _ _ _ => false
  | .cstring _ _ _ => false
  | .bitfield _ fmt _ _ => !fmt.isEmpty
  | .alias _ sub _ =>
    !Struct.isNil sub && decide (Struct.names sub).Nodup && Struct.rtFields sub
/-- All fields of the schema are round-trippable. -/
def Struct.rtFields : StructSpec → Bool
  | .nil => true
  | .cons f fs => FieldSpec.rt f && Struct.rtFields fs
end

/-- Round-trippable schema: nonempty, distinct field names, and every
field round-trippable (recursively). -/
def Struct.rt (fs : StructSpec) : Bool :=
  !Struct.isNil fs && decide (Struct.names fs).Nodup && Struct.rtFields fs

/-!
## Derived reader facts
-/

namespace BufferedReader

theorem peek_spec (r : BufferedReader) (n : Nat) (hg : r.good) (hn : 0 < n) :
    (r.peek n).1 = .ok (r.avail.take n) ∧
    (r.peek n).2.avail = r.avail ∧ (r.peek n).2.good := by
  obtain ⟨h1, h2, h3⟩ := read_spec r n hg hn
  unfold peek
  cases hr : r.read n with
  | mk res r' =>
    cases res with
    | error e => rw [hr] at h1; exact absurd h1 (by simp)
    | ok bs =>
      rw [hr] at h1 h2 h3
      simp only at h1 h2 h3 ⊢
      injection h1 with h1
      refine ⟨by rw [h1], ?_, good_pushback _ _ h3⟩
      rw [avail_pushback, h2, h1, List.take_append_drop]

end BufferedReader

open BufferedReader in
theorem fieldRead_spec (fd : BufferedReader) (n : Nat) (hg : fd.good) (hn : 0 < n) :
    (fd.avail = [] → fieldRead fd n = (.error .endOfData, (fd.read n).2)) ∧
    (fd.avail ≠ [] →
      fieldRead fd n = (.ok (fd.avail.take n), (fd.read n).2) ∧
      (fd.read n).2.avail = fd.avail.drop n ∧ (fd.read n).2.good) := by
  obtain ⟨h1, h2, h3⟩ := read_spec fd n hg hn
  constructor
  · intro hav
    unfold fieldRead
    cases hr : fd.read n with
    | mk res fd' =>
      cases res with
      | error e => rw [hr] at h1; exact absurd h1 (by simp)
      | ok bs =>
        rw [hr] at h1
        injection h1 with h1
        simp only
        rw [if_pos (by rw [h1, hav, List.take_nil])]
  · intro hav
    unfold fieldRead
    cases hr : fd.read n with
    | mk res fd' =>
      cases res with
      | error e => rw [hr] at h1; exact absurd h1 (by simp)
      | ok bs =>
        rw [hr] at h1 h2 h3
        injection h1 with h1
        simp only at h2 h3 ⊢
        rw [if_neg (by
          rw [h1, List.take_eq_nil_iff]
          rintro (hc | hc)
          · omega
          · exact hav hc)]
        exact ⟨by rw [h1], h2, h3⟩

open BufferedReader in
theorem sizeCheckRead_spec (fd : BufferedReader) (n : Nat) (hg : fd.good) :
    (n = 0 → sizeCheckRead n fd = (.error .assertionError, fd)) ∧
    (0 < n → n ≤ fd.avail.length →
      ∃ fd₁, sizeCheckRead n fd = (.ok (), fd₁) ∧ fd₁.avail = fd.avail ∧ fd₁.good) ∧
    (fd.avail.length < n →
      ∃ fd₁, sizeCheckRead n fd = (.error .endOfData, fd₁) ∧ fd₁.avail = fd.avail ∧ fd₁.good) := by
  refine ⟨?_, ?_, ?_⟩
  · intro h0
    subst h0
    unfold sizeCheckRead BufferedReader.read
    simp
  · intro hn hlen
    obtain ⟨h1, h2, h3⟩ := read_spec fd n hg hn
    unfold sizeCheckRead
    cases hr : fd.read n with
    | mk res fd' =>
      cases res with
      | error e => rw [hr] at h1; exact absurd h1 (by simp)
      | ok bs =>
        rw [hr] at h1 h2 h3
        injection h1 with h1
        simp only at h2 h3 ⊢
        rw [if_neg (by rw [h1, List.length_take]; omega)]
        refine ⟨fd'.pushback bs, rfl, ?_, good_pushback _ _ h3⟩
        rw [avail_pushback, h2, h1, List.take_append_drop]
  · intro hlen
    have hn : 0 < n := by omega
    obtain ⟨h1, h2, h3⟩ := read_spec fd n hg hn
    unfold sizeCheckRead
    cases hr : fd.read n with
    | mk res fd' =>
      cases res with
      | error e => rw [hr] at h1; exact absurd h1 (by simp)
      | ok bs =>
        rw [hr] at h1 h2 h3
        injection h1 with h1
        simp only at h2 h3 ⊢
        rw [if_pos (by rw [h1, List.length_take]; omega)]
        refine ⟨fd'.pushback bs, rfl, ?_, good_pushback _ _ h3⟩
        rw [avail_pushback, h2, h1, List.take_append_drop]

open BufferedReader in
/-- The `CString.unpack` loop, when the delimiter occurs: it consumes the
prefix up to and including the first delimiter byte, returns the prefix
without the delimiter (appended to the accumulator), and leaves the bytes
after the delimiter available. -/
theorem cstringLoop_found (delim : Nat) (s rest : List Nat) (fd : BufferedReader)
    (acc : List Nat) (fuel : Nat) (hg : fd.good) (ha : fd.avail = s ++ delim :: rest)
    (hs : delim ∉ s) (hfuel : s.length < fuel) :
    ∃ fd', cstringLoop delim fuel fd acc = (.ok (acc ++ s), fd') ∧
      fd'.avail = rest ∧ fd'.good := by
  induction s generalizing fd acc fuel with
  | nil =>
    cases fuel with
    | zero => omega
    | succ fuel =>
      have hne : fd.avail ≠ [] := by rw [ha]; simp
      obtain ⟨hfr, hdrop, hgood⟩ := (fieldRead_spec fd 1 hg (by omega)).2 hne
      simp only [cstringLoop, hfr]
      have ht : List.take 1 fd.avail = [delim] := by rw [ha]; rfl
      rw [ht, if_pos rfl]
      refine ⟨(fd.read 1).2, by simp, ?_, hgood⟩
      rw [hdrop, ha]
      simp
  | cons c s ih =>
    cases fuel with
    | zero => omega
    | succ fuel =>
      have hne : fd.avail ≠ [] := by rw [ha]; simp
      obtain ⟨hfr, hdrop, hgood⟩ := (fieldRead_spec fd 1 hg (by omega)).2 hne
      simp only [cstringLoop, hfr]
      have ht : List.take 1 fd.avail = [c] := by rw [ha]; rfl
      have hc : c ≠ delim := fun hc => hs (by rw [hc]; exact List.mem_cons_self _ _)
      rw [ht, if_neg (by simpa using hc)]
      have ha' : (fd.read 1).2.avail = s ++ delim :: rest := by
        rw [hdrop, ha]; simp
      obtain ⟨fd', hloop, hrest, hgood'⟩ :=
        ih (fd.read 1).2 (acc ++ [c]) fuel hgood ha'
          (fun hmem => hs (List.mem_cons_of_mem _ hmem)) (by simp at hfuel ⊢; omega)
      refine ⟨fd', ?_, hrest, hgood'⟩
      rw [hloop]
      simp

open BufferedReader in
/-- The `CString.unpack` loop, when the delimiter never appears: it runs
the stream dry and raises `EndOfData`. -/
theorem cstringLoop_exhaust (delim : Nat) (fd : BufferedReader) (acc : List Nat) (fuel : Nat)
    (hg : fd.good) (hd : delim ∉ fd.avail) (hfuel : fd.avail.length < fuel) :
    ∃ fd', cstringLoop delim fuel fd acc = (.error .endOfData, fd') := by
  induction fuel generalizing fd acc with
  | zero => omega
  | succ fuel ih =>
    cases hav : fd.avail with
    | nil =>
      have hfr := (fieldRead_spec fd 1 hg (by omega)).1 hav
      simp only [cstringLoop, hfr]
      exact ⟨(fd.read 1).2, rfl⟩
    | cons c t =>
      have hne : fd.avail ≠ [] := by rw [hav]; simp
      obtain ⟨hfr, hdrop, hgood⟩ := (fieldRead_spec fd 1 hg (by omega)).2 hne
      simp only [cstringLoop, hfr]
      have ht : List.take 1 fd.avail = [c] := by rw [hav]; rfl
      have hc : c ≠ delim := fun hc => hd (by rw [hav, hc]; exact List.mem_cons_self _ _)
      rw [ht, if_neg (by simpa using hc)]
      apply ih
      · exact hgood
      · rw [hdrop, hav]
        intro hmem
        exact hd (by rw [hav]; exact List.mem_cons_of_mem _ (by simpa using hmem))
      · rw [hdrop, hav]
        rw [hav] at hfuel
        simp at hfuel ⊢
        omega

theorem calcsize_pos (fmt : List Elem) (h : fmt ≠ []) : 0 < calcsize fmt := by
  cases fmt with
  | nil => simp at h
  | cons e fs =>
    have := Elem.width_pos e
    simp only [calcsize, List.map_cons, List.sum_cons]
    omega

open BufferedReader in
/-- `Field.unpack` (`Array.unpack` followed by `[0]`) on a reader holding
at least `calcsize fmt` bytes whose leading bytes decode to `w :: ws`:
returns `w` and consumes exactly `calcsize fmt` bytes. -/
theorem scalarUnpack_spec (fmt : List Elem) (fd : BufferedReader) (w : Nat) (ws : List Nat)
    (hg : fd.good) (hfmt : fmt ≠ []) (hlen : calcsize fmt ≤ fd.avail.length)
    (hw : PyStruct.unpackAux fmt (fd.avail.take (calcsize fmt)) = w :: ws) :
    scalarUnpack fmt fd = (.ok w, (fd.read (calcsize fmt)).2) ∧
    (fd.read (calcsize fmt)).2.avail = fd.avail.drop (calcsize fmt) ∧
    (fd.read (calcsize fmt)).2.good := by
  have hpos := calcsize_pos fmt hfmt
  have hne : fd.avail ≠ [] := by
    intro hc
    rw [hc] at hlen
    simp at hlen
    omega
  obtain ⟨hfr, hdrop, hgood⟩ := (fieldRead_spec fd (calcsize fmt) hg hpos).2 hne
  have hunp : PyStruct.unpack fmt (fd.avail.take (calcsize fmt)) = .ok (w :: ws) := by
    rw [PyStruct.unpack, if_pos (by rw [List.length_take]; omega), hw]
  refine ⟨?_, hdrop, hgood⟩
  unfold scalarUnpack arrayUnpack
  rw [hfr]
  simp [hunp]

theorem dictGet?_append_none {K V : Type} [DecidableEq K] (m₁ m₂ : List (K × V)) (k : K)
    (h : dictGet? m₁ k = none) : dictGet? (m₁ ++ m₂) k = dictGet? m₂ k := by
  induction m₁ with
  | nil => rfl
  | cons p m ih =>
    obtain ⟨k', v⟩ := p
    by_cases hk : k' = k
    · simp [dictGet?, hk] at h
    · simp only [dictGet?, if_neg hk] at h
      simp only [List.cons_append, dictGet?, if_neg hk]
      exact ih h

theorem dictInsert_append_of_none {K V : Type} [DecidableEq K] (m : List (K × V)) (k : K)
    (v : V) (h : dictGet? m k = none) : dictInsert m k v = m ++ [(k, v)] := by
  induction m with
  | nil => rfl
  | cons p m ih =>
    obtain ⟨k', v'⟩ := p
    by_cases hk : k' = k
    · simp [dictGet?, hk] at h
    · simp only [dictGet?, if_neg hk] at h
      simp only [dictInsert, if_neg hk, List.cons_append, List.cons.injEq, true_and]
      exact ih h

/-- Closed form of the `BitField.unpack` loop when the flag names are
distinct and none of them is already a key of the accumulator: the result
appends, in list order, one entry per non-placeholder name bound to the
data bit at its position. -/
theorem bitsUnpack_closed (data : Nat) (flags : List (Option String)) (i : Nat)
    (vals : List (Option String × Bool))
    (hnd : (flags.filterMap id).Nodup)
    (hfresh : ∀ f, some f ∈ flags → dictGet? vals (some f) = none) :
    bitsUnpack data flags i vals =
      vals ++ (flags.enumFrom i).filterMap
        (fun p => p.2.map (fun f => (some f, data.testBit p.1))) := by
  induction flags generalizing i vals with
  | nil => simp [bitsUnpack, List.enumFrom]
  | cons g fs ih =>
    cases g with
    | none =>
      simp only [bitsUnpack, List.enumFrom, List.filterMap_cons, Option.map_none]
      exact ih (i + 1) vals (by simpa using hnd)
        (fun f hf => hfresh f (List.mem_cons_of_mem _ hf))
    | some f =>
      have hnd2 : some f ∉ fs ∧ (fs.filterMap id).Nodup := by simpa using hnd
      have hnotin : some f ∉ fs := hnd2.1
      have hb := and_shiftLeft_ne_zero data i
      have hins : dictInsert vals (some f) (decide (data &&& (1 <<< i) ≠ 0))
          = vals ++ [(some f, data.testBit i)] := by
        rw [hb, dictInsert_append_of_none _ _ _ (hfresh f (List.mem_cons_self _ _))]
      simp only [bitsUnpack, hins, List.enumFrom, List.filterMap_cons, Option.map_some]
      rw [ih (i + 1) _ hnd2.2 (fun f' hf' => by
        have hne : some f ≠ some f' := by
          intro hc
          injection hc with hc
          subst hc
          exact hnotin hf'
        rw [dictGet?_append_none _ _ _ (hfresh f' (List.mem_cons_of_mem _ hf'))]
        simp only [dictGet?]
        rw [if_neg hne])]
      simp

/-- Induction over a schema's field list alone (the fields themselves are
treated as opaque; nesting through `alias` is handled by the mutual
recursion of the statements that need it). -/
@[induction_eliminator]
theorem StructSpec.inductionOn {motive : StructSpec → Prop} (nil : motive .nil)
    (cons : ∀ f fs, motive fs → motive (.cons f fs)) : ∀ fs, motive fs
  | .nil => nil
  | .cons f fs => cons f fs (StructSpec.inductionOn nil cons fs)

/-- The accumulator of the `Struct.pack` loop only ever grows at the end:
running the loop with any starting accumulator prepends it to the chunks
the loop produces from an empty one. -/
theorem packFields_acc (values : List (String × Value)) (fs : StructSpec)
    (acc : List (List Nat)) :
    Struct.packFields values fs acc =
      match Struct.packFields values fs [] with
      | .ok l => .ok (acc ++ l)
      | .error e => .error e := by
  induction fs generalizing acc with
  | nil => simp [Struct.packFields]
  | cons f fs ih =>
    simp only [Struct.packFields]
    cases hp : FieldSpec.pack f (dictGetD values (FieldSpec.name f) (FieldSpec.defaultVal f)) with
    | error e => simp
    | ok bs =>
      dsimp only
      simp only [List.nil_append]
      rw [ih (acc ++ [bs]), ih [bs]]
      cases hrest : Struct.packFields values fs [] with
      | error e => simp
      | ok l => simp

/-- The `Struct.pack` loop is exactly a monadic map over the fields:
encode each field at the value looked up under its name (or its
materialized default). -/
theorem packFields_eq_mapM (values : List (String × Value)) (fs : StructSpec) :
    Struct.packFields values fs [] =
      (Struct.toList fs).mapM
        (fun f => FieldSpec.pack f (dictGetD values (FieldSpec.name f) (FieldSpec.defaultVal f))) := by
  induction fs with
  | nil => rfl
  | cons f fs ih =>
    simp only [Struct.packFields, Struct.toList, List.mapM_cons]
    cases hp : FieldSpec.pack f (dictGetD values (FieldSpec.name f) (FieldSpec.defaultVal f)) with
    | error e => rfl
    | ok bs =>
      dsimp only
      simp only [List.nil_append]
      rw [packFields_acc values fs [bs], ih]
      cases hrest : (Struct.toList fs).mapM
          (fun f => FieldSpec.pack f (dictGetD values (FieldSpec.name f) (FieldSpec.defaultVal f))) with
      | error e => rfl
      | ok l => simp [Bind.bind, Except.bind, Pure.pure, Except.pure]

/-!
## Claim theorems
-/

/-- C7: for every buffered-reader state and every positive `n`, `peek(n)`
followed immediately by `read(n)` returns two identical byte strings; the
pair leaves the reader in exactly the state a single `read(n)` would have
(so together they consume no more of the underlying source than one
`read(n)`); and the `peek` alone does not advance the position — the
available bytes are unchanged and the peeked state is literally the
post-`read` state with the result pushed back. -/
theorem claim7_peek_read (r : BufferedReader) (n : Nat) (bs : List Nat) (r₁ : BufferedReader)
    (hn : 0 < n) (h : r.peek n = (.ok bs, r₁)) :
    r₁.read n = (.ok bs, (r.read n).2) ∧ r₁.avail = r.avail ∧
      r₁ = (r.read n).2.pushback bs := by
  unfold BufferedReader.peek at h
  cases hr : r.read n with
  | mk res r' =>
    rw [hr] at h
    cases res with
    | error e => simp at h
    | ok bs' =>
      simp only [Prod.mk.injEq, Except.ok.injEq] at h
      obtain ⟨hb, hr₁⟩ := h
      subst hr₁
      have hread := BufferedReader.read_pushback_read r n bs' r' hr
      have happ := BufferedReader.read_append r n bs' r' hr
      rw [← hb]
      refine ⟨?_, ?_, ?_⟩
      · rw [hread]
      · rw [BufferedReader.avail_pushback, happ]
      · rfl

/-- C7 witness: a concrete reader state with pending bytes, a chunked
source, and `n = 3`. -/
theorem claim7_witness :
    ((BufferedReader.mk [1, 2] false [3, 4, 5] 2).peek 3).2.read 3
        = (.ok [1, 2, 3], ((BufferedReader.mk [1, 2] false [3, 4, 5] 2).read 3).2) ∧
      ((BufferedReader.mk [1, 2] false [3, 4, 5] 2).peek 3).2.avail
        = (BufferedReader.mk [1, 2] false [3, 4, 5] 2).avail ∧
      ((BufferedReader.mk [1, 2] false [3, 4, 5] 2).peek 3).2
        = ((BufferedReader.mk [1, 2] false [3, 4, 5] 2).read 3).2.pushback [1, 2, 3] :=
  claim7_peek_read _ 3 [1, 2, 3] _ (by decide) (by rfl)

/-- C8: an `Alias` field delegates `size`, `unpack` and `pack` to the
embedded schema: its width is the schema's size, its decode is exactly
`Struct.unpack` of the schema wrapped as a nested record, and its encode
of a nested record is exactly `Struct.pack` of the schema. -/
theorem claim8_alias (nm : String) (sub : StructSpec) (dflt : DefaultSpec) :
    (FieldSpec.alias nm sub dflt).size = Struct.size sub ∧
    (∀ fd, (FieldSpec.alias nm sub dflt).unpack fd =
      (match Struct.unpack sub fd with
       | (.ok m, fd') => (.ok (Value.vrecord m), fd')
       | (.error e, fd') => (.error e, fd'))) ∧
    (∀ m, (FieldSpec.alias nm sub dflt).pack (.vrecord m) = Struct.pack sub m) := by
  refine ⟨rfl, ?_, fun m => rfl⟩
  intro fd
  simp only [FieldSpec.unpack, Struct.unpack]
  cases hsc : sizeCheckRead (Struct.size sub) fd with
  | mk res fd' =>
    cases res with
    | error e => rfl
    | ok u =>
      cases u
      dsimp only

/-- C9: `Struct.pack` is the concatenation, in declared field order, of
each field's encoding of the value found under the field's name in the
record — falling back to the field's materialized default (a callable
default is invoked at that point) — with no framing in between: the
accumulate-and-join loop equals a monadic map followed by `flatten`. -/
theorem claim9_pack_concat (fs : StructSpec) (values : List (String × Value)) :
    Struct.pack fs values =
      ((Struct.toList fs).mapM
        (fun f => FieldSpec.pack f
          (dictGetD values (FieldSpec.name f) (FieldSpec.defaultVal f)))).map
        List.flatten := by
  unfold Struct.pack
  rw [packFields_eq_mapM]
  cases h : (Struct.toList fs).mapM
      (fun f => FieldSpec.pack f (dictGetD values (FieldSpec.name f) (FieldSpec.defaultVal f))) with
  | ok l => rfl
  | error e => rfl

/-- C10: a schema whose minimum size is 0 — e.g. all fields are
variable-length delimited strings, or there are no fields — makes
`Struct.unpack` fail unconditionally before decoding any field, because
the whole-schema lookahead calls the reader's `read` with length 0,
violating its `assert length > 0`.  The reader is left untouched. -/
theorem claim10_min_size_zero (fs : StructSpec) (fd : BufferedReader)
    (h0 : Struct.size fs = 0) :
    Struct.unpack fs fd = (.error .assertionError, fd) := by
  unfold Struct.unpack
  rw [h0]
  have h : sizeCheckRead 0 fd = (.error .assertionError, fd) := by
    unfold sizeCheckRead BufferedReader.read
    simp
  rw [h]

/-- C10 witness: a one-field all-`CString` schema over a stream that even
contains perfectly valid data (`"hi\x00"`). -/
theorem claim10_witness :
    Struct.unpack (.cons (.cstring "s" 0 (.lit (.vstr []))) .nil)
        (.mk0 [104, 105, 0] 4096)
      = (.error .assertionError, .mk0 [104, 105, 0] 4096) :=
  claim10_min_size_zero _ _ rfl

/-- C2: decoding a schema with no variable-length fields against a stream
holding fewer than `minimum_size()` bytes fails with `EndOfData`, leaves
the stream position unchanged, and a subsequent `peek` of the same length
on the same reader returns exactly the bytes that were available before
the failed attempt. -/
theorem claim2_underread (fs : StructSpec) (fd : BufferedReader)
    (hnv : Struct.noVarFields fs = true) (hg : fd.good)
    (hlt : fd.avail.length < Struct.size fs) :
    ∃ fd₁, Struct.unpack fs fd = (.error .endOfData, fd₁) ∧
      fd₁.avail = fd.avail ∧
      (fd₁.peek (Struct.size fs)).1 = .ok fd.avail := by
  obtain ⟨fd₁, hsc, hav, hgood⟩ := (sizeCheckRead_spec fd (Struct.size fs) hg).2.2 hlt
  refine ⟨fd₁, ?_, hav, ?_⟩
  · unfold Struct.unpack
    rw [hsc]
  · have hpos : 0 < Struct.size fs := by omega
    obtain ⟨hp1, _, _⟩ := BufferedReader.peek_spec fd₁ (Struct.size fs) hgood hpos
    rw [hp1, hav, List.take_of_length_le (Nat.le_of_lt hlt)]

/-- C2 witness: a single 2-byte scalar field against a 1-byte stream. -/
theorem claim2_witness :
    ∃ fd₁, Struct.unpack (.cons (.scalar "x" [.u16le] (.lit (.vnat 0))) .nil)
        (.mk0 [171] 4096) = (.error .endOfData, fd₁) ∧
      fd₁.avail = (BufferedReader.mk0 [171] 4096).avail ∧
      (fd₁.peek (Struct.size (.cons (.scalar "x" [.u16le] (.lit (.vnat 0))) .nil))).1
        = .ok (BufferedReader.mk0 [171] 4096).avail :=
  claim2_underread _ _ (by decide) (by decide) (by decide)

/-- C3: a `Constant` field with expected value `v` fails decoding with a
`ValueError` carrying the field name, `v`, and the actually decoded value
`w` whenever `w ≠ v`; succeeds and yields `v` when the stream decodes to
`v` (consuming exactly its width); and always encodes `v`, whatever value
the caller supplies. -/
theorem claim3_constant (nm : String) (fmt : List Elem) (v : Nat) (fd : BufferedReader)
    (w : Nat) (ws : List Nat) (hg : fd.good) (hfmt : fmt ≠ [])
    (hlen : calcsize fmt ≤ fd.avail.length)
    (hw : PyStruct.unpackAux fmt (fd.avail.take (calcsize fmt)) = w :: ws) :
    (w ≠ v → ∃ fd', (FieldSpec.constant nm fmt v).unpack fd =
        (.error (.valueError nm v w), fd')) ∧
    (w = v → ∃ fd', (FieldSpec.constant nm fmt v).unpack fd = (.ok (.vnat v), fd') ∧
        fd'.avail = fd.avail.drop (calcsize fmt)) ∧
    (∀ x, (FieldSpec.constant nm fmt v).pack x = PyStruct.pack fmt [v]) := by
  obtain ⟨hs1, hdrop, hgood⟩ := scalarUnpack_spec fmt fd w ws hg hfmt hlen hw
  refine ⟨?_, ?_, fun x => rfl⟩
  · intro hne
    refine ⟨(fd.read (calcsize fmt)).2, ?_⟩
    simp only [FieldSpec.unpack]
    rw [hs1]
    dsimp only
    rw [if_pos hne]
  · intro heq
    subst heq
    refine ⟨(fd.read (calcsize fmt)).2, ?_, hdrop⟩
    simp only [FieldSpec.unpack]
    rw [hs1]
    dsimp only
    rw [if_neg (by simp)]

/-- C3 witness: the spec's own example — expected `0x1234` big-endian,
stream containing `0x5678`. -/
theorem claim3_witness :
    (22136 ≠ 4660 → ∃ fd', (FieldSpec.constant "magic" [.u16be] 4660).unpack
        (.mk0 [86, 120] 4096) = (.error (.valueError "magic" 4660 22136), fd')) ∧
    (22136 = 4660 → ∃ fd', (FieldSpec.constant "magic" [.u16be] 4660).unpack
        (.mk0 [86, 120] 4096) = (.ok (.vnat 4660), fd') ∧
        fd'.avail = (BufferedReader.mk0 [86, 120] 4096).avail.drop (calcsize [.u16be])) ∧
    (∀ x, (FieldSpec.constant "magic" [.u16be] 4660).pack x = PyStruct.pack [.u16be] [4660]) :=
  claim3_constant "magic" [.u16be] 4660 _ 22136 [] (by decide) (by decide) (by decide) (by rfl)

/-- C4: a `CString` field with delimiter byte `d` decodes by consuming
bytes through the first occurrence of `d`, returning the bytes before it
(delimiter consumed, not part of the value, remaining bytes left for the
next read); it fails with `EndOfData` when the stream runs out before any
delimiter; it encodes a value by appending the delimiter; and its declared
width is 0. -/
theorem claim4_cstring (nm : String) (delim : Nat) (dflt : DefaultSpec)
    (fd : BufferedReader) (s rest : List Nat) (hg : fd.good) :
    (fd.avail = s ++ delim :: rest → delim ∉ s →
      ∃ fd', (FieldSpec.cstring nm delim dflt).unpack fd = (.ok (.vstr s), fd') ∧
        fd'.avail = rest ∧ fd'.good) ∧
    (delim ∉ fd.avail →
      ∃ fd', (FieldSpec.cstring nm delim dflt).unpack fd = (.error .endOfData, fd')) ∧
    (∀ t, (FieldSpec.cstring nm delim dflt).pack (.vstr t) = .ok (t ++ [delim])) ∧
    (FieldSpec.cstring nm delim dflt).size = 0 := by
  refine ⟨?_, ?_, fun t => rfl, rfl⟩
  · intro ha hs
    obtain ⟨fd', hloop, hrest, hgood'⟩ :=
      cstringLoop_found delim s rest fd [] (fd.avail.length + 1) hg ha hs
        (by rw [ha]; simp only [List.length_append, List.length_cons]; omega)
    refine ⟨fd', ?_, hrest, hgood'⟩
    simp only [FieldSpec.unpack]
    rw [hloop]
    simp
  · intro hd
    obtain ⟨fd', hloop⟩ :=
      cstringLoop_exhaust delim fd [] (fd.avail.length + 1) hg hd (by omega)
    refine ⟨fd', ?_⟩
    simp only [FieldSpec.unpack]
    rw [hloop]

/-- C4 witness: the spec's framing example — decoding
`61 62 63 00 64 65 66 00` with the default NUL delimiter yields `"abc"`
and leaves `64 65 66 00`; encoding `"abc"` yields `61 62 63 00`. -/
theorem claim4_witness :
    ((BufferedReader.mk0 [97, 98, 99, 0, 100, 101, 102, 0] 4096).avail
        = [97, 98, 99] ++ 0 :: [100, 101, 102, 0] → (0 : Nat) ∉ [97, 98, 99] →
      ∃ fd', (FieldSpec.cstring "s" 0 (.lit (.vstr []))).unpack
          (.mk0 [97, 98, 99, 0, 100, 101, 102, 0] 4096) = (.ok (.vstr [97, 98, 99]), fd') ∧
        fd'.avail = [100, 101, 102, 0] ∧ fd'.good) ∧
    ((0 : Nat) ∉ (BufferedReader.mk0 [97, 98, 99, 0, 100, 101, 102, 0] 4096).avail →
      ∃ fd', (FieldSpec.cstring "s" 0 (.lit (.vstr []))).unpack
          (.mk0 [97, 98, 99, 0, 100, 101, 102, 0] 4096) = (.error .endOfData, fd')) ∧
    (∀ t, (FieldSpec.cstring "s" 0 (.lit (.vstr []))).pack (.vstr t) = .ok (t ++ [0])) ∧
    (FieldSpec.cstring "s" 0 (.lit (.vstr []))).size = 0 :=
  claim4_cstring "s" 0 (.lit (.vstr [])) (.mk0 [97, 98, 99, 0, 100, 101, 102, 0] 4096)
    [97, 98, 99] [100, 101, 102, 0] (by decide)

/-- C5: a `BitField` over an ordered flag list (with `none` placeholders)
decodes the underlying scalar `n` into a dictionary with exactly one entry
per non-placeholder name, in list order, where the name at index `i` is
bound to bit `i` of `n`; and it encodes a dictionary that supplies a
boolean for every non-placeholder name into the scalar whose bit `j` is
set exactly when the name at index `j` is mapped to true (placeholders
contribute nothing in either direction), the scalar then being packed by
the underlying format. -/
theorem claim5_bitfield (nm : String) (fmt : List Elem) (flags : List (Option String))
    (dflt : DefaultSpec) (fd : BufferedReader) (n : Nat) (ns : List Nat)
    (m : List (Option String × Bool))
    (hg : fd.good) (hfmt : fmt ≠ []) (hlen : calcsize fmt ≤ fd.avail.length)
    (hn : PyStruct.unpackAux fmt (fd.avail.take (calcsize fmt)) = n :: ns)
    (hnd : (flags.filterMap id).Nodup) :
    (∃ fd', (FieldSpec.bitfield nm fmt flags dflt).unpack fd =
        (.ok (.vflags ((flags.enumFrom 0).filterMap
          (fun p => p.2.map (fun f => (some f, n.testBit p.1))))), fd') ∧
      fd'.avail = fd.avail.drop (calcsize fmt)) ∧
    ((∀ f, some f ∈ flags → dictGet? m (some f) ≠ none) →
      ∃ d, bitsPack m flags 0 0 = .ok d ∧
        (∀ j, d.testBit j =
          (((flags.get? j).join.bind (fun f => dictGet? m (some f))).getD false)) ∧
        (FieldSpec.bitfield nm fmt flags dflt).pack (.vflags m) = PyStruct.pack fmt [d]) := by
  constructor
  · obtain ⟨hs1, hdrop, hgood⟩ := scalarUnpack_spec fmt fd n ns hg hfmt hlen hn
    refine ⟨(fd.read (calcsize fmt)).2, ?_, hdrop⟩
    simp only [FieldSpec.unpack]
    rw [hs1]
    dsimp only
    rw [bitsUnpack_closed n flags 0 [] hnd (fun f _ => rfl)]
    rw [List.nil_append]
  · intro hm
    obtain ⟨d, hd⟩ := bitsPack_ok m flags 0 0 hm
    refine ⟨d, hd, ?_, ?_⟩
    · intro j
      have := bitsPack_testBit m flags 0 0 d hd j
      simpa [Nat.zero_testBit] using this
    · simp only [FieldSpec.pack]
      rw [hd]

/-- C5 witness: the spec's example — flags `[A, B, None, C]` over one
byte; decoding `0b1011` and encoding `{A: true, B: false, C: true}`. -/
theorem claim5_witness :
    (∃ fd', (FieldSpec.bitfield "f" [.u8] [some "A", some "B", none, some "C"]
        (.lit .vnone)).unpack (.mk0 [11] 4096) =
        (.ok (.vflags (([some "A", some "B", none, some "C"].enumFrom 0).filterMap
          (fun p => p.2.map (fun f => (some f, (11 : Nat).testBit p.1))))), fd') ∧
      fd'.avail = (BufferedReader.mk0 [11] 4096).avail.drop (calcsize [.u8])) ∧
    ((∀ f, some f ∈ [some "A", some "B", none, some "C"] →
        dictGet? [(some "A", true), (some "B", false), (some "C", true)] (some f) ≠ none) →
      ∃ d, bitsPack [(some "A", true), (some "B", false), (some "C", true)]
          [some "A", some "B", none, some "C"] 0 0 = .ok d ∧
        (∀ j, d.testBit j =
          ((([some "A", some "B", none, some "C"].get? j).join.bind
            (fun f => dictGet? [(some "A", true), (some "B", false), (some "C", true)]
              (some f))).getD false)) ∧
        (FieldSpec.bitfield "f" [.u8] [some "A", some "B", none, some "C"]
          (.lit .vnone)).pack
            (.vflags [(some "A", true), (some "B", false), (some "C", true)])
          = PyStruct.pack [.u8] [d]) :=
  claim5_bitfield "f" [.u8] [some "A", some "B", none, some "C"] (.lit .vnone)
    (.mk0 [11] 4096) 11 [] [(some "A", true), (some "B", false), (some "C", true)]
    (by decide) (by decide) (by decide) (by rfl) (by decide)

open BufferedReader in
/-- A successful `Array.unpack` consumed exactly `calcsize fmt` bytes
(struct.unpack would have raised on a short buffer, and a zero-width read
would have tripped the reader's assertion). -/
theorem arrayUnpack_ok (fmt : List Elem) (fd : BufferedReader) (vs : List Nat)
    (fd' : BufferedReader) (hg : fd.good) (h : arrayUnpack fmt fd = (.ok vs, fd')) :
    fd'.avail = fd.avail.drop (calcsize fmt) ∧ calcsize fmt ≤ fd.avail.length ∧ fd'.good := by
  by_cases hn : calcsize fmt = 0
  · exfalso
    unfold arrayUnpack fieldRead BufferedReader.read at h
    rw [hn] at h
    simp at h
  · have hpos : 0 < calcsize fmt := by omega
    obtain ⟨h1, h2, h3⟩ := read_spec fd (calcsize fmt) hg hpos
    unfold arrayUnpack fieldRead at h
    cases hr : fd.read (calcsize fmt) with
    | mk res fd₂ =>
      rw [hr] at h h1 h2 h3
      cases res with
      | error e => exact absurd h1 (by simp)
      | ok bs =>
        simp only at h h1 h2 h3
        injection h1 with h1
        by_cases hbs : bs = []
        · rw [if_pos hbs] at h
          simp at h
        · rw [if_neg hbs] at h
          simp only [Prod.mk.injEq] at h
          obtain ⟨hu, hfd⟩ := h
          subst hfd
          refine ⟨h2, ?_, h3⟩
          rw [PyStruct.unpack] at hu
          split at hu
          · rename_i hlen
            rw [h1, List.length_take] at hlen
            omega
          · exact absurd hu (by simp)

/-- A successful `Field.unpack` (scalar) consumed exactly its width. -/
theorem scalarUnpack_ok (fmt : List Elem) (fd : BufferedReader) (w : Nat)
    (fd' : BufferedReader) (hg : fd.good) (h : scalarUnpack fmt fd = (.ok w, fd')) :
    fd'.avail = fd.avail.drop (calcsize fmt) ∧ calcsize fmt ≤ fd.avail.length ∧ fd'.good := by
  unfold scalarUnpack at h
  cases ha : arrayUnpack fmt fd with
  | mk res fd₂ =>
    rw [ha] at h
    cases res with
    | error e => simp at h
    | ok vs =>
      cases vs with
      | nil => simp at h
      | cons v vs =>
        simp only [Prod.mk.injEq, Except.ok.injEq] at h
        obtain ⟨hv, hfd⟩ := h
        subst hfd
        exact arrayUnpack_ok fmt fd (v :: vs) fd₂ hg ha

open BufferedReader in
/-- A successful whole-schema lookahead implies at least `n` available
bytes, and it leaves the available bytes (and consistency) unchanged. -/
theorem sizeCheckRead_ok (n : Nat) (fd fd₁ : BufferedReader) (hg : fd.good)
    (h : sizeCheckRead n fd = (.ok (), fd₁)) :
    fd₁.avail = fd.avail ∧ n ≤ fd.avail.length ∧ fd₁.good := by
  by_cases hn : n = 0
  · subst hn
    unfold sizeCheckRead BufferedReader.read at h
    simp at h
  · have hpos : 0 < n := by omega
    obtain ⟨h1, h2, h3⟩ := read_spec fd n hg hpos
    unfold sizeCheckRead at h
    cases hr : fd.read n with
    | mk res fd₂ =>
      rw [hr] at h h1 h2 h3
      cases res with
      | error e => exact absurd h1 (by simp)
      | ok data =>
        simp only at h h1 h2 h3
        injection h1 with h1
        split at h
        · simp at h
        · rename_i hlen
          rw [h1, List.length_take] at hlen
          simp only [Prod.mk.injEq] at h
          obtain ⟨_, hfd⟩ := h
          subst hfd
          refine ⟨?_, by omega, good_pushback _ _ h3⟩
          rw [avail_pushback, h2, h1, List.take_append_drop]

mutual
/-- A successful decode of a field with no variable-length parts consumes
exactly `size()` bytes of the available stream. -/
theorem fieldConsume (f : FieldSpec) (fd : BufferedReader) (v : Value)
    (fd' : BufferedReader) (hnv : FieldSpec.noVar f = true) (hg : fd.good)
    (h : FieldSpec.unpack f fd = (.ok v, fd')) :
    fd'.avail = fd.avail.drop (FieldSpec.size f) ∧
      FieldSpec.size f ≤ fd.avail.length ∧ fd'.good := by
  cases f with
  | array nm fmt d =>
    simp only [FieldSpec.unpack] at h
    cases ha : arrayUnpack fmt fd with
    | mk res fd₂ =>
      rw [ha] at h
      cases res with
      | error e => simp at h
      | ok vs =>
        simp only [Prod.mk.injEq] at h
        obtain ⟨_, hfd⟩ := h
        subst hfd
        exact arrayUnpack_ok fmt fd vs fd₂ hg ha
  | scalar nm fmt d =>
    simp only [FieldSpec.unpack] at h
    cases hs : scalarUnpack fmt fd with
    | mk res fd₂ =>
      rw [hs] at h
      cases res with
      | error e => simp at h
      | ok w =>
        simp only [Prod.mk.injEq] at h
        obtain ⟨_, hfd⟩ := h
        subst hfd
        exact scalarUnpack_ok fmt fd w fd₂ hg hs
  | constant nm fmt cv =>
    simp only [FieldSpec.unpack] at h
    cases hs : scalarUnpack fmt fd with
    | mk res fd₂ =>
      rw [hs] at h
      cases res with
      | error e => simp at h
      | ok w =>
        simp only at h
        split at h
        · simp at h
        · simp only [Prod.mk.injEq] at h
          obtain ⟨_, hfd⟩ := h
          subst hfd
          exact scalarUnpack_ok fmt fd w fd₂ hg hs
  | cstring nm delim d => simp [FieldSpec.noVar] at hnv
  | bitfield nm fmt flags d =>
    simp only [FieldSpec.unpack] at h
    cases hs : scalarUnpack fmt fd with
    | mk res fd₂ =>
      rw [hs] at h
      cases res with
      | error e => simp at h
      | ok w =>
        simp only [Prod.mk.injEq] at h
        obtain ⟨_, hfd⟩ := h
        subst hfd
        exact scalarUnpack_ok fmt fd w fd₂ hg hs
  | «alias» nm sub d =>
    simp only [FieldSpec.unpack] at h
    cases hsc : sizeCheckRead (Struct.size sub) fd with
    | mk res fd₁ =>
      rw [hsc] at h
      cases res with
      | error e => simp at h
      | ok u =>
        cases u
        simp only at h
        cases huf : Struct.unpackFields sub fd₁ [] with
        | mk res2 fd₂ =>
          rw [huf] at h
          cases res2 with
          | error e => simp at h
          | ok m =>
            simp only [Prod.mk.injEq] at h
            obtain ⟨_, hfd⟩ := h
            subst hfd
            obtain ⟨hav₁, hlen₁, hgood₁⟩ := sizeCheckRead_ok (Struct.size sub) fd fd₁ hg hsc
            obtain ⟨hav₂, hlen₂, hgood₂⟩ :=
              fieldsConsume sub fd₁ [] m fd₂ (by simpa [FieldSpec.noVar] using hnv) hgood₁ huf
            rw [hav₁] at hav₂ hlen₂
            exact ⟨hav₂, hlen₂, hgood₂⟩
/-- A successful run of the field loop over variable-length-free fields
consumes exactly the sum of the field sizes. -/
theorem fieldsConsume (fs : StructSpec) (fd : BufferedReader)
    (acc out : List (String × Value)) (fd' : BufferedReader)
    (hnv : Struct.noVarFields fs = true) (hg : fd.good)
    (h : Struct.unpackFields fs fd acc = (.ok out, fd')) :
    fd'.avail = fd.avail.drop (Struct.size fs) ∧
      Struct.size fs ≤ fd.avail.length ∧ fd'.good := by
  cases fs with
  | nil =>
    simp only [Struct.unpackFields, Prod.mk.injEq] at h
    obtain ⟨_, hfd⟩ := h
    subst hfd
    simpa [Struct.size] using hg
  | cons f fs =>
    simp only [Struct.unpackFields] at h
    simp only [Struct.noVarFields, Bool.and_eq_true] at hnv
    cases hf : FieldSpec.unpack f fd with
    | mk res fd₁ =>
      rw [hf] at h
      cases res with
      | error e => simp at h
      | ok v =>
        simp only at h
        obtain ⟨hav₁, hlen₁, hgood₁⟩ := fieldConsume f fd v fd₁ hnv.1 hg hf
        obtain ⟨hav₂, hlen₂, hgood₂⟩ :=
          fieldsConsume fs fd₁ (dictInsert acc (FieldSpec.name f) v) out fd' hnv.2 hgood₁ h
        rw [hav₁] at hav₂ hlen₂
        refine ⟨?_, ?_, hgood₂⟩
        · rw [hav₂, List.drop_drop, Struct.size]
        · simp only [List.length_drop] at hlen₂
          rw [Struct.size]
          omega
end

/-- `Struct.size` is literally the sum of the per-field sizes. -/
theorem size_eq_sum (fs : StructSpec) : Struct.size fs = (Struct.fieldSizes fs).sum := by
  induction fs with
  | nil => rfl
  | cons f fs ih => simp [Struct.size, Struct.fieldSizes, ih]

/-- C6: for a schema with no variable-length fields, `minimum_size()`
(`Struct.size`) is the sum of the fields' fixed widths and equals the
exact number of bytes a successful decode consumes from the stream. -/
theorem claim6_min_size_exact (fs : StructSpec) (fd : BufferedReader)
    (out : List (String × Value)) (fd' : BufferedReader)
    (hnv : Struct.noVarFields fs = true) (hg : fd.good)
    (h : Struct.unpack fs fd = (.ok out, fd')) :
    Struct.size fs = (Struct.fieldSizes fs).sum ∧
      fd'.avail = fd.avail.drop (Struct.size fs) ∧
      Struct.size fs ≤ fd.avail.length := by
  refine ⟨size_eq_sum fs, ?_⟩
  unfold Struct.unpack at h
  cases hsc : sizeCheckRead (Struct.size fs) fd with
  | mk res fd₁ =>
    rw [hsc] at h
    cases res with
    | error e => simp at h
    | ok u =>
      cases u
      simp only at h
      obtain ⟨hav₁, hlen₁, hgood₁⟩ := sizeCheckRead_ok (Struct.size fs) fd fd₁ hg hsc
      obtain ⟨hav₂, hlen₂, _⟩ := fieldsConsume fs fd₁ [] out fd' hnv hgood₁ h
      rw [hav₁] at hav₂ hlen₂
      exact ⟨hav₂, hlen₂⟩

/-- C6 witness: one little-endian 16-bit field over a 3-byte stream
consumes exactly 2 bytes. -/
theorem claim6_witness :
    Struct.size (.cons (.scalar "x" [.u16le] (.lit (.vnat 0))) .nil)
      = (Struct.fieldSizes (.cons (.scalar "x" [.u16le] (.lit (.vnat 0))) .nil)).sum ∧
    (BufferedReader.mk [3] false [] 4096).avail
      = (BufferedReader.mk0 [1, 2, 3] 4096).avail.drop
          (Struct.size (.cons (.scalar "x" [.u16le] (.lit (.vnat 0))) .nil)) ∧
    Struct.size (.cons (.scalar "x" [.u16le] (.lit (.vnat 0))) .nil)
      ≤ (BufferedReader.mk0 [1, 2, 3] 4096).avail.length :=
  claim6_min_size_exact (.cons (.scalar "x" [.u16le] (.lit (.vnat 0))) .nil)
    (.mk0 [1, 2, 3] 4096) [("x", .vnat 513)] (.mk [3] false [] 4096)
    (by decide) (by decide) (by rfl)

/-- A successful `BitField.pack` looked up every non-placeholder flag name
(otherwise it would have raised `KeyError`). -/
theorem bitsPack_ok_mem (values : List (Option String × Bool)) (fs : List (Option String))
    (i a d : Nat) (h : bitsPack values fs i a = .ok d) :
    ∀ f, some f ∈ fs → dictGet? values (some f) ≠ none := by
  induction fs generalizing i a with
  | nil => simp
  | cons g fs ih =>
    intro f hf
    cases g with
    | none =>
      rcases List.mem_cons.mp hf with h1 | h1
      · exact Option.noConfusion h1
      · exact ih (i + 1) a h f h1
    | some f' =>
      simp only [bitsPack] at h
      cases hb : dictGet? values (some f') with
      | none => rw [hb] at h; exact absurd h (by simp)
      | some b =>
        rw [hb] at h
        rcases List.mem_cons.mp hf with h1 | h1
        · injection h1 with h1
          subst h1
          rw [hb]
          simp
        · exact ih (i + 1) _ h f h1

/-- Bit-flag round trip: re-encoding the dictionary decoded from a scalar
that was itself produced by `BitField.pack` yields the same scalar, even
with duplicate flag names (every position of a name receives the same
bit). -/
theorem bitsPack_bitsUnpack (m : List (Option String × Bool)) (flags : List (Option String))
    (dta : Nat) (h : bitsPack m flags 0 0 = .ok dta) :
    bitsPack (bitsUnpack dta flags 0 []) flags 0 0 = .ok dta := by
  have hmem : ∀ f, some f ∈ flags → dictGet? (bitsUnpack dta flags 0 []) (some f) ≠ none := by
    intro f hf
    obtain ⟨j, _, hj2⟩ := bitsUnpack_get_of_mem dta flags 0 [] f hf
    rw [hj2]
    simp
  obtain ⟨d', hd'⟩ := bitsPack_ok (bitsUnpack dta flags 0 []) flags 0 0 hmem
  have hpresent := bitsPack_ok_mem m flags 0 0 dta h
  have heq : d' = dta := by
    apply Nat.eq_of_testBit_eq
    intro j
    have h1 := bitsPack_testBit (bitsUnpack dta flags 0 []) flags 0 0 d' hd' j
    have h2 := bitsPack_testBit m flags 0 0 dta h j
    simp only [Nat.zero_testBit, Nat.zero_le, decide_True, Bool.false_or, Bool.true_and,
      Nat.sub_zero] at h1 h2
    rw [h1, h2]
    cases hget : flags.get? j with
    | none => simp
    | some g =>
      cases g with
      | none => simp [Option.join]
      | some f =>
        have hfmem : some f ∈ flags := List.get?_mem hget
        obtain ⟨j', hj'1, hj'2⟩ := bitsUnpack_get_of_mem dta flags 0 [] f hfmem
        rw [Nat.zero_add] at hj'2
        have h3 := bitsPack_testBit m flags 0 0 dta h j'
        simp only [Nat.zero_testBit, Nat.zero_le, decide_True, Bool.false_or, Bool.true_and,
          Nat.sub_zero, hj'1] at h3
        cases hb : dictGet? m (some f) with
        | none => exact absurd hb (hpresent f hfmem)
        | some b =>
          simp only [Option.join, Option.bind, id_eq, Option.getD, hj'2, hb] at h3 ⊢
          rw [h3]
  rw [heq] at hd'
  exact hd'

mutual
/-- Round-trippable fields contain no variable-length (`CString`) parts. -/
theorem fieldRtNoVar (f : FieldSpec) (h : FieldSpec.rt f = true) :
    FieldSpec.noVar f = true := by
  cases f with
  | array nm fmt d => rfl
  | scalar nm fmt d => rfl
  | constant nm fmt cv => simp [FieldSpec.rt] at h
  | cstring nm delim d => simp [FieldSpec.rt] at h
  | bitfield nm fmt flags d => rfl
  | «alias» nm sub d =>
    simp only [FieldSpec.rt, Bool.and_eq_true] at h
    simp only [FieldSpec.noVar]
    exact fieldsRtNoVar sub h.2
theorem fieldsRtNoVar (fs : StructSpec) (h : Struct.rtFields fs = true) :
    Struct.noVarFields fs = true := by
  cases fs with
  | nil => rfl
  | cons f fs =>
    simp only [Struct.rtFields, Bool.and_eq_true] at h
    simp only [Struct.noVarFields, Bool.and_eq_true]
    exact ⟨fieldRtNoVar f h.1, fieldsRtNoVar fs h.2⟩
end

mutual
/-- Round-trippable fields have positive width. -/
theorem fieldSizePos (f : FieldSpec) (h : FieldSpec.rt f = true) : 0 < FieldSpec.size f := by
  cases f with
  | array nm fmt d =>
    simp only [FieldSpec.rt, Bool.not_eq_true'] at h
    exact calcsize_pos fmt (by simpa [List.isEmpty_iff] using h)
  | scalar nm fmt d =>
    simp only [FieldSpec.rt, Bool.not_eq_true'] at h
    exact calcsize_pos fmt (by simpa [List.isEmpty_iff] using h)
  | constant nm fmt cv => simp [FieldSpec.rt] at h
  | cstring nm delim d => simp [FieldSpec.rt] at h
  | bitfield nm fmt flags d =>
    simp only [FieldSpec.rt, Bool.not_eq_true'] at h
    exact calcsize_pos fmt (by simpa [List.isEmpty_iff] using h)
  | «alias» nm sub d =>
    simp only [FieldSpec.rt, Bool.and_eq_true] at h
    exact structSizePos sub h.1.1 h.2
/-- A nonempty schema of round-trippable fields has a positive minimum
size. -/
theorem structSizePos (fs : StructSpec) (hne : (!Struct.isNil fs) = true)
    (h : Struct.rtFields fs = true) : 0 < Struct.size fs := by
  cases fs with
  | nil => simp [Struct.isNil] at hne
  | cons f fs =>
    simp only [Struct.rtFields, Bool.and_eq_true] at h
    have := fieldSizePos f h.1
    simp only [Struct.size]
    omega
end

mutual
/-- The encoding of a field with no variable-length parts is exactly
`size()` bytes long. -/
theorem fieldPackLen (f : FieldSpec) (v : Value) (bs : List Nat)
    (hnv : FieldSpec.noVar f = true) (h : FieldSpec.pack f v = .ok bs) :
    bs.length = FieldSpec.size f := by
  cases f with
  | array nm fmt d =>
    cases v <;> simp only [FieldSpec.pack] at h <;> try exact absurd h (by simp)
    exact PyStruct.pack_length fmt _ bs h
  | scalar nm fmt d =>
    cases v <;> simp only [FieldSpec.pack] at h <;> try exact absurd h (by simp)
    exact PyStruct.pack_length fmt _ bs h
  | constant nm fmt cv =>
    simp only [FieldSpec.pack] at h
    exact PyStruct.pack_length fmt _ bs h
  | cstring nm delim d => simp [FieldSpec.noVar] at hnv
  | bitfield nm fmt flags d =>
    cases v <;> simp only [FieldSpec.pack] at h <;> try exact absurd h (by simp)
    rename_i m
    cases hbp : bitsPack m flags 0 0 with
    | error e => rw [hbp] at h; exact absurd h (by simp)
    | ok dta =>
      rw [hbp] at h
      exact PyStruct.pack_length fmt _ bs h
  | «alias» nm sub d =>
    cases v <;> simp only [FieldSpec.pack] at h <;> try exact absurd h (by simp)
    rename_i m
    cases hpf : Struct.packFields m sub [] with
    | error e => rw [hpf] at h; exact absurd h (by simp)
    | ok chunks =>
      rw [hpf] at h
      injection h with h
      subst h
      simp only [FieldSpec.size]
      exact fieldsPackLen m sub chunks (by simpa [FieldSpec.noVar] using hnv) hpf
/-- The joined encoding of a schema with no variable-length fields is
exactly `Struct.size` bytes long. -/
theorem fieldsPackLen (values : List (String × Value)) (fs : StructSpec)
    (chunks : List (List Nat)) (hnv : Struct.noVarFields fs = true)
    (h : Struct.packFields values fs [] = .ok chunks) :
    chunks.flatten.length = Struct.size fs := by
  cases fs with
  | nil =>
    simp only [Struct.packFields, Except.ok.injEq] at h
    subst h
    rfl
  | cons f fs =>
    simp only [Struct.noVarFields, Bool.and_eq_true] at hnv
    simp only [Struct.packFields] at h
    cases hpf : FieldSpec.pack f (dictGetD values (FieldSpec.name f) (FieldSpec.defaultVal f)) with
    | error e => rw [hpf] at h; exact absurd h (by simp)
    | ok bsf =>
      rw [hpf] at h
      dsimp only at h
      rw [List.nil_append, packFields_acc values fs [bsf]] at h
      cases hrest : Struct.packFields values fs [] with
      | error e => rw [hrest] at h; exact absurd h (by simp)
      | ok chunks' =>
        rw [hrest] at h
        dsimp only at h
        injection h with h
        subst h
        simp only [List.singleton_append, List.flatten_cons, List.length_append, Struct.size]
        rw [fieldPackLen f _ bsf hnv.1 hpf, fieldsPackLen values fs chunks' hnv.2 hrest]
end

open BufferedReader in
/-- `Array.unpack` inverts a successful `Array.pack` and consumes exactly
the encoded bytes. -/
theorem arrayUnpack_of_pack (fmt : List Elem) (vs bs rest : List Nat) (fd : BufferedReader)
    (hp : PyStruct.pack fmt vs = .ok bs) (hg : fd.good) (hbs : bs ≠ [])
    (ha : fd.avail = bs ++ rest) :
    arrayUnpack fmt fd = (.ok vs, (fd.read (calcsize fmt)).2) ∧
    (fd.read (calcsize fmt)).2.avail = rest ∧ (fd.read (calcsize fmt)).2.good := by
  have hlen := PyStruct.pack_length fmt vs bs hp
  have hup := PyStruct.unpack_pack fmt vs bs hp
  have hpos : 0 < calcsize fmt := by
    rw [← hlen]
    exact List.length_pos.mpr hbs
  have hbs_take : fd.avail.take (calcsize fmt) = bs := by
    rw [ha, List.take_append_of_le_length (by omega), List.take_of_length_le (by omega)]
  have hbs_drop : fd.avail.drop (calcsize fmt) = rest := by
    rw [ha, List.drop_append_of_le_length (by omega),
      List.drop_eq_nil_of_le (by omega), List.nil_append]
  have hne : fd.avail ≠ [] := by
    rw [ha]
    intro hc
    exact hbs (List.append_eq_nil.mp hc).1
  obtain ⟨hfr, hdrop, hgood⟩ := (fieldRead_spec fd (calcsize fmt) hg hpos).2 hne
  refine ⟨?_, by rw [hdrop, hbs_drop], hgood⟩
  unfold arrayUnpack
  rw [hfr]
  dsimp only
  rw [hbs_take, hup]

/-- `Field.unpack` inverts a successful scalar `Field.pack`. -/
theorem scalarUnpack_of_pack (fmt : List Elem) (n₀ : Nat) (bs rest : List Nat)
    (fd : BufferedReader) (hp : PyStruct.pack fmt [n₀] = .ok bs) (hg : fd.good)
    (hbs : bs ≠ []) (ha : fd.avail = bs ++ rest) :
    scalarUnpack fmt fd = (.ok n₀, (fd.read (calcsize fmt)).2) ∧
    (fd.read (calcsize fmt)).2.avail = rest ∧ (fd.read (calcsize fmt)).2.good := by
  obtain ⟨harr, hdrop, hgood⟩ := arrayUnpack_of_pack fmt [n₀] bs rest fd hp hg hbs ha
  refine ⟨?_, hdrop, hgood⟩
  unfold scalarUnpack
  rw [harr]

/-- A successful pack of a positive-width field yields nonempty bytes. -/
theorem pack_ne_nil_of_rt (f : FieldSpec) (v : Value) (bs : List Nat)
    (hrt : FieldSpec.rt f = true) (hp : FieldSpec.pack f v = .ok bs) : bs ≠ [] := by
  have hlen := fieldPackLen f v bs (fieldRtNoVar f hrt) hp
  have hpos := fieldSizePos f hrt
  intro hc
  rw [hc] at hlen
  simp at hlen
  omega

mutual
/-- One direction of the amended round trip, per field: decoding a stream
that starts with a successful encoding of a round-trippable field yields a
value that re-encodes to exactly the same bytes, consuming them all. -/
theorem fieldRT (f : FieldSpec) (v : Value) (bs rest : List Nat) (fd : BufferedReader)
    (hrt : FieldSpec.rt f = true) (hp : FieldSpec.pack f v = .ok bs)
    (hg : fd.good) (ha : fd.avail = bs ++ rest) :
    ∃ v' fd', FieldSpec.unpack f fd = (.ok v', fd') ∧ fd'.avail = rest ∧ fd'.good ∧
      FieldSpec.pack f v' = .ok bs := by
  have hbs := pack_ne_nil_of_rt f v bs hrt hp
  cases f with
  | array nm fmt d =>
    cases v <;> simp only [FieldSpec.pack] at hp <;> try exact absurd hp (by simp)
    rename_i vs
    obtain ⟨harr, hdrop, hgood⟩ := arrayUnpack_of_pack fmt vs bs rest fd hp hg hbs ha
    refine ⟨.vtuple vs, (fd.read (calcsize fmt)).2, ?_, hdrop, hgood, hp⟩
    simp only [FieldSpec.unpack]
    rw [harr]
  | scalar nm fmt d =>
    cases v <;> simp only [FieldSpec.pack] at hp <;> try exact absurd hp (by simp)
    rename_i n₀
    obtain ⟨hsc, hdrop, hgood⟩ := scalarUnpack_of_pack fmt n₀ bs rest fd hp hg hbs ha
    refine ⟨.vnat n₀, (fd.read (calcsize fmt)).2, ?_, hdrop, hgood, hp⟩
    simp only [FieldSpec.unpack]
    rw [hsc]
  | constant nm fmt cv => simp [FieldSpec.rt] at hrt
  | cstring nm delim d => simp [FieldSpec.rt] at hrt
  | bitfield nm fmt flags d =>
    cases v <;> simp only [FieldSpec.pack] at hp <;> try exact absurd hp (by simp)
    rename_i m
    cases hbp : bitsPack m flags 0 0 with
    | error e => rw [hbp] at hp; exact absurd hp (by simp)
    | ok dta =>
      rw [hbp] at hp
      dsimp only at hp
      obtain ⟨hsc, hdrop, hgood⟩ := scalarUnpack_of_pack fmt dta bs rest fd hp hg hbs ha
      refine ⟨.vflags (bitsUnpack dta flags 0 []), (fd.read (calcsize fmt)).2, ?_, hdrop,
        hgood, ?_⟩
      · simp only [FieldSpec.unpack]
        rw [hsc]
      · simp only [FieldSpec.pack]
        rw [bitsPack_bitsUnpack m flags dta hbp]
        dsimp only
        exact hp
  | «alias» nm sub d =>
    simp only [FieldSpec.rt, Bool.and_eq_true, decide_eq_true_eq] at hrt
    obtain ⟨⟨hne, hnd⟩, hrtf⟩ := hrt
    cases v <;> simp only [FieldSpec.pack] at hp <;> try exact absurd hp (by simp)
    rename_i m
    cases hpf : Struct.packFields m sub [] with
    | error e => rw [hpf] at hp; exact absurd hp (by simp)
    | ok chunks =>
      rw [hpf] at hp
      injection hp with hp
      have hlen : chunks.flatten.length = Struct.size sub :=
        fieldsPackLen m sub chunks (fieldsRtNoVar sub hrtf) hpf
      have hpos : 0 < Struct.size sub := structSizePos sub hne hrtf
      obtain ⟨fd₁, hcheck, hav₁, hgood₁⟩ :=
        (sizeCheckRead_spec fd (Struct.size sub) hg).2.1 hpos
          (by rw [ha, ← hp, List.length_append]; omega)
      have ha₁ : fd₁.avail = chunks.flatten ++ rest := by rw [hav₁, ha, ← hp]
      obtain ⟨out, fd', hout, havail, hgood', hkeys, hpack'⟩ :=
        fieldsRT sub m chunks rest fd₁ [] hrtf hnd hpf hgood₁ ha₁
      refine ⟨.vrecord out, fd', ?_, havail, hgood', ?_⟩
      · simp only [FieldSpec.unpack]
        rw [hcheck]
        dsimp only
        rw [hout]
      · simp only [FieldSpec.pack]
        rw [hpack']
        dsimp only
        rw [hp]
/-- One direction of the amended round trip, for the field loop: decoding
a stream that starts with the joined chunks of a successful pack yields a
record that re-packs to the same chunks; keys outside the schema's names
are untouched. -/
theorem fieldsRT (fs : StructSpec) (values : List (String × Value))
    (chunks : List (List Nat)) (rest : List Nat) (fd : BufferedReader)
    (acc : List (String × Value))
    (hrt : Struct.rtFields fs = true) (hnd : (Struct.names fs).Nodup)
    (hp : Struct.packFields values fs [] = .ok chunks)
    (hg : fd.good) (ha : fd.avail = chunks.flatten ++ rest) :
    ∃ out fd', Struct.unpackFields fs fd acc = (.ok out, fd') ∧ fd'.avail = rest ∧
      fd'.good ∧
      (∀ k, k ∉ Struct.names fs → dictGet? out k = dictGet? acc k) ∧
      Struct.packFields out fs [] = .ok chunks := by
  cases fs with
  | nil =>
    simp only [Struct.packFields, Except.ok.injEq] at hp
    subst hp
    refine ⟨acc, fd, rfl, by simpa using ha, hg, fun k _ => rfl, rfl⟩
  | cons f fs =>
    simp only [Struct.rtFields, Bool.and_eq_true] at hrt
    simp only [Struct.names, List.nodup_cons] at hnd
    simp only [Struct.packFields] at hp
    cases hpf : FieldSpec.pack f (dictGetD values (FieldSpec.name f) (FieldSpec.defaultVal f)) with
    | error e => rw [hpf] at hp; exact absurd hp (by simp)
    | ok bsf =>
      rw [hpf] at hp
      dsimp only at hp
      rw [List.nil_append, packFields_acc values fs [bsf]] at hp
      cases hrest2 : Struct.packFields values fs [] with
      | error e => rw [hrest2] at hp; exact absurd hp (by simp)
      | ok chunks' =>
        rw [hrest2] at hp
        dsimp only at hp
        injection hp with hp
        have ha' : fd.avail = bsf ++ (chunks'.flatten ++ rest) := by
          rw [ha, ← hp]
          simp
        obtain ⟨v', fd₁, hunp, hav₁, hgood₁, hrepack⟩ :=
          fieldRT f (dictGetD values (FieldSpec.name f) (FieldSpec.defaultVal f))
            bsf (chunks'.flatten ++ rest) fd hrt.1 hpf hg ha'
        obtain ⟨out, fd', hout, havail, hgood', hkeys, hpack'⟩ :=
          fieldsRT fs values chunks' rest fd₁
            (dictInsert acc (FieldSpec.name f) v') hrt.2 hnd.2 hrest2 hgood₁ hav₁
        refine ⟨out, fd', ?_, havail, hgood', ?_, ?_⟩
        · simp only [Struct.unpackFields]
          rw [hunp]
          dsimp only
          exact hout
        · intro k hk
          simp only [Struct.names, List.mem_cons, not_or] at hk
          rw [hkeys k hk.2]
          exact dictGet?_insert_ne acc k (FieldSpec.name f) v' (Ne.symm hk.1)
        · have hlook : dictGet? out (FieldSpec.name f) = some v' := by
            rw [hkeys (FieldSpec.name f) hnd.1, dictGet?_insert_self]
          have hgetD : dictGetD out (FieldSpec.name f) (FieldSpec.defaultVal f) = v' := by
            rw [dictGetD, hlook]
            rfl
          simp only [Struct.packFields]
          rw [hgetD, hrepack]
          dsimp only
          rw [List.nil_append, packFields_acc out fs [bsf], hpack']
          dsimp only
          rw [hp]
end

/-- C1 (amended): for every schema that is nonempty with distinct field
names, whose fields all have positive width (nonempty formats; nested
`Alias` sub-schemas nonempty with distinct names, recursively), and that
contains no constant and no delimited-string fields, decoding a stream
holding exactly a validly encoded byte string and re-encoding the decoded
record reproduces the byte string: `pack(unpack(bytes)) == bytes`.  The
original claim, quantified over *every* constant-free and
delimited-string-free schema, is refuted by `claim1_counterexample`. -/
theorem claim1_roundtrip (fs : StructSpec) (values : List (String × Value)) (bs : List Nat)
    (fd : BufferedReader) (hrt : Struct.rt fs = true)
    (hp : Struct.pack fs values = .ok bs) (hg : fd.good) (ha : fd.avail = bs) :
    ∃ out fd', Struct.unpack fs fd = (.ok out, fd') ∧ Struct.pack fs out = .ok bs ∧
      fd'.avail = [] := by
  simp only [Struct.rt, Bool.and_eq_true, decide_eq_true_eq] at hrt
  obtain ⟨⟨hne, hnd⟩, hrtf⟩ := hrt
  unfold Struct.pack at hp
  cases hpf : Struct.packFields values fs [] with
  | error e => rw [hpf] at hp; exact absurd hp (by simp)
  | ok chunks =>
    rw [hpf] at hp
    dsimp only at hp
    injection hp with hp
    have hlen : chunks.flatten.length = Struct.size fs :=
      fieldsPackLen values fs chunks (fieldsRtNoVar fs hrtf) hpf
    have hpos : 0 < Struct.size fs := structSizePos fs hne hrtf
    obtain ⟨fd₁, hcheck, hav₁, hgood₁⟩ :=
      (sizeCheckRead_spec fd (Struct.size fs) hg).2.1 hpos (by rw [ha, ← hp]; omega)
    obtain ⟨out, fd', hout, havail, hgood', hkeys, hpack'⟩ :=
      fieldsRT fs values chunks [] fd₁ [] hrtf hnd hpf hgood₁
        (by rw [hav₁, ha, ← hp, List.append_nil])
    refine ⟨out, fd', ?_, ?_, havail⟩
    · unfold Struct.unpack
      rw [hcheck]
      exact hout
    · unfold Struct.pack
      rw [hpack']
      dsimp only
      rw [hp]

/-- C1 witness: a two-field schema (16-bit little-endian scalar and a
one-byte bit-flag field with a placeholder) round-trips the encoding of a
concrete record. -/
theorem claim1_witness :
    ∃ out fd',
      Struct.unpack
        (.cons (.scalar "x" [.u16le] (.lit (.vnat 0)))
          (.cons (.bitfield "f" [.u8] [some "A", none, some "B"] (.lit .vnone)) .nil))
        (.mk0 [1, 2, 1] 4096) = (.ok out, fd') ∧
      Struct.pack
        (.cons (.scalar "x" [.u16le] (.lit (.vnat 0)))
          (.cons (.bitfield "f" [.u8] [some "A", none, some "B"] (.lit .vnone)) .nil))
        out = .ok [1, 2, 1] ∧
      fd'.avail = [] :=
  claim1_roundtrip
    (.cons (.scalar "x" [.u16le] (.lit (.vnat 0)))
      (.cons (.bitfield "f" [.u8] [some "A", none, some "B"] (.lit .vnone)) .nil))
    [("x", .vnat 513), ("f", .vflags [(some "A", true), (some "B", false)])]
    [1, 2, 1] (.mk0 [1, 2, 1] 4096) (by decide) (by rfl) (by decide) (by rfl)

/-- C1 counterexample, refuting the claim as stated.  Two concrete
failures: (1) the empty schema has no constant and no delimited-string
fields and `""` is a valid encoding of it, yet decoding raises
`AssertionError` (the zero-length lookahead read), so
`pack(unpack(b""))` cannot reproduce `b""`; (2) a schema with two
`BitField` fields that share the name `"a"` but declare different flag
names packs `{a: {X: true, Y: false}}` to `01 00`, decodes those bytes to
a record whose `"a"` entry only has the key `Y`, and re-encoding that
record raises `KeyError` on `X` — so `pack(unpack(bytes)) ≠ bytes` on a
validly encoded input. -/
theorem claim1_counterexample :
    (Struct.pack .nil [] = .ok [] ∧
      (Struct.unpack .nil (.mk0 [] 4096)).1 = .error .assertionError) ∧
    (Struct.pack
        (.cons (.bitfield "a" [.u8] [some "X"] (.lit .vnone))
          (.cons (.bitfield "a" [.u8] [some "Y"] (.lit .vnone)) .nil))
        [("a", .vflags [(some "X", true), (some "Y", false)])] = .ok [1, 0] ∧
      (Struct.unpack
        (.cons (.bitfield "a" [.u8] [some "X"] (.lit .vnone))
          (.cons (.bitfield "a" [.u8] [some "Y"] (.lit .vnone)) .nil))
        (.mk0 [1, 0] 4096)).1 = .ok [("a", .vflags [(some "Y", false)])] ∧
      Struct.pack
        (.cons (.bitfield "a" [.u8] [some "X"] (.lit .vnone))
          (.cons (.bitfield "a" [.u8] [some "Y"] (.lit .vnone)) .nil))
        [("a", .vflags [(some "Y", false)])] = .error (.keyError "X")) :=
  ⟨⟨rfl, rfl⟩, rfl, rfl, rfl⟩
